import Mathlib

/-!
# Verification of the Sigment constructed-language core

Shallow embedding of the Sigment repository's core algorithms
(`src/etymological-analyzer.js`, the `PhoneticMapper` class, and
`src/language-generator.js`) together with proofs about them.

Strings are modelled as `List Char` (`Word`).  JavaScript's
`String.prototype.toLowerCase` is modelled on the ASCII range, which is the
only range the analysed algorithms distinguish.  JavaScript `Map` objects are
modelled as insertion-ordered association lists with JS `Map.set` semantics
(replace the value in place if the key exists, append otherwise).  Numeric
values computed with JS floating point (semantic weights, consistency scores)
are modelled with `ℚ`.
-/

/-- Words are lists of characters (model of JS strings). -/
abbrev Word := List Char

namespace Sigment

/-- ASCII uppercase letters. -/
def upperChars : List Char :=
  ['A','B','C','D','E','F','G','H','I','J','K','L','M',
   'N','O','P','Q','R','S','T','U','V','W','X','Y','Z']

/-- A character is an (ASCII) uppercase letter. -/
def isUpperChar (c : Char) : Bool := c ∈ upperChars

/-- ASCII model of JS `toLowerCase` on a single character. -/
def toLowerChar (c : Char) : Char :=
  match c with
  | 'A' => 'a' | 'B' => 'b' | 'C' => 'c' | 'D' => 'd' | 'E' => 'e'
  | 'F' => 'f' | 'G' => 'g' | 'H' => 'h' | 'I' => 'i' | 'J' => 'j'
  | 'K' => 'k' | 'L' => 'l' | 'M' => 'm' | 'N' => 'n' | 'O' => 'o'
  | 'P' => 'p' | 'Q' => 'q' | 'R' => 'r' | 'S' => 's' | 'T' => 't'
  | 'U' => 'u' | 'V' => 'v' | 'W' => 'w' | 'X' => 'x' | 'Y' => 'y'
  | 'Z' => 'z' | c => c

/-- Model of JS `word.toLowerCase()`. -/
def toLower (w : Word) : Word := w.map toLowerChar

/-- The five source vowels `'aeiou'`. -/
def vowels5 : List Char := ['a', 'e', 'i', 'o', 'u']

/-- The 21 lowercase consonants `'bcdfghjklmnpqrstvwxyz'`. -/
def consonants21 : List Char :=
  ['b','c','d','f','g','h','j','k','l','m','n','p','q','r','s','t','v','w','x','y','z']

/-- The character class `[aeiouy]` used by `estimateSyllables`. -/
def isVowelY (c : Char) : Bool := c ∈ ['a', 'e', 'i', 'o', 'u', 'y']

/-- Membership in `vowels5` as a `Bool` (JS `'aeiou'.includes(c)`). -/
def isVowel5 (c : Char) : Bool := c ∈ vowels5

/-- JS whitespace characters relevant to `String.prototype.trim` (ASCII part). -/
def wsChars : List Char := [' ', '\t', '\n', '\r']

/-- Model of JS `word.trim()`. -/
def trim (w : Word) : Word :=
  ((w.dropWhile (· ∈ wsChars)).reverse.dropWhile (· ∈ wsChars)).reverse

/-! ## Etymological analyzer (`src/etymological-analyzer.js`) -/

/-- Morpheme kinds produced by `decomposeMorphemes` (the JS strings
`'prefix'`, `'root'`, `'suffix'`). -/
inductive MorphemeType where
  | pre
  | root
  | suf
  deriving DecidableEq, Repr

/-- A morpheme record `{type, value, meaning}`; the `meaning` string is never
consulted by the algorithms under verification and is dropped from the model. -/
structure Morpheme where
  mtype : MorphemeType
  value : Word
  deriving DecidableEq, Repr

/-- The fixed-priority prefix list of `morphemePatterns.prefixes`
(note: every entry carries a literal trailing hyphen, exactly as in the source). -/
def prefixList : List Word :=
  ["un-".data, "re-".data, "pre-".data, "dis-".data, "mis-".data, "over-".data,
   "under-".data, "out-".data, "up-".data, "anti-".data, "de-".data, "non-".data]

/-- The fixed-priority suffix list of `morphemePatterns.suffixes`
(every entry carries a literal leading hyphen, exactly as in the source). -/
def suffixList : List Word :=
  ["-ing".data, "-ed".data, "-er".data, "-est".data, "-ly".data, "-tion".data,
   "-sion".data, "-ness".data, "-ment".data, "-ful".data, "-less".data,
   "-able".data, "-ible".data]

/-- First prefix-list entry that is a literal prefix of `w`
(the `for … break` loop over `morphemePatterns.prefixes`). -/
def firstPrefixMatch (w : Word) : Option Word :=
  prefixList.find? (fun p => decide (p <+: w))

/-- First suffix-list entry that is a literal suffix of `w`
(the `for … break` loop over `morphemePatterns.suffixes`). -/
def firstSuffixMatch (w : Word) : Option Word :=
  suffixList.find? (fun s => decide (s <:+ w))

/-- The value of `remaining` after the prefix-stripping loop of
`decomposeMorphemes`, on the already-lowercased word. -/
def afterPrefixStrip (lw : Word) : Word :=
  match firstPrefixMatch lw with
  | some p => lw.drop p.length
  | none => lw

/-- The residual of `w` after stripping the first matching prefix and then the
first matching suffix (the final value of `remaining` in `decomposeMorphemes`). -/
def residual (w : Word) : Word :=
  let afterPrefix := afterPrefixStrip (toLower w)
  match firstSuffixMatch afterPrefix with
  | some s => afterPrefix.take (afterPrefix.length - s.length)
  | none => afterPrefix

/-- `decomposeMorphemes(word)`: strip at most one prefix, then at most one
suffix from the remainder, and record the non-empty residual as the root. -/
def decomposeMorphemes (w : Word) : List Morpheme :=
  let lw := toLower w
  let prefixMs :=
    match firstPrefixMatch lw with
    | some p => [Morpheme.mk .pre p]
    | none => []
  let afterPrefix := afterPrefixStrip lw
  let (suffixMs, remaining) :=
    match firstSuffixMatch afterPrefix with
    | some s => ([Morpheme.mk .suf s], afterPrefix.take (afterPrefix.length - s.length))
    | none => ([], afterPrefix)
  let rootMs := if remaining ≠ [] then [Morpheme.mk .root remaining] else []
  prefixMs ++ suffixMs ++ rootMs

/-- Number of maximal contiguous runs of characters satisfying `p`
(the length of the JS global-regex match list for `/[p]+/g`).  The `Bool`
argument records whether the previous character was inside a run. -/
def countRunsAux (p : Char → Bool) : List Char → Bool → Nat
  | [], _ => 0
  | c :: cs, inRun =>
      if p c then
        (if inRun then 0 else 1) + countRunsAux p cs true
      else
        countRunsAux p cs false

/-- Number of maximal contiguous runs of characters satisfying `p`. -/
def countRuns (p : Char → Bool) (w : Word) : Nat := countRunsAux p w false

/-- `estimateSyllables(word)`: the number of `/[aeiouy]+/g` matches on the
lowercased word, or 1 when there is none. -/
def estimateSyllables (w : Word) : Nat :=
  let n := countRuns isVowelY (toLower w)
  if n = 0 then 1 else n

/-- `estimateStressPattern(word)` stress marks. -/
inductive Stress where
  | primary
  | secondary
  | unstressed
  deriving DecidableEq, Repr

/-- `estimateStressPattern(word)`. -/
def estimateStressPattern (w : Word) : List Stress :=
  let syllables := estimateSyllables w
  if syllables = 1 then [.primary]
  else if syllables = 2 then [.primary, .secondary]
  else
    (List.range syllables).map (fun i =>
      if i = 0 then Stress.primary
      else if i = syllables - 2 then Stress.secondary
      else Stress.unstressed)

/-- `calculateSemanticWeight(morpheme)`. -/
def calculateSemanticWeight (m : Morpheme) : ℚ :=
  match m.mtype with
  | .root => 1
  | .pre => 6/10
  | .suf => 4/10

/-- A semantic component as produced by `extractSemanticComponents`
(the `conceptualCategory` field is never consulted and is dropped). -/
structure SemanticComponent where
  component : Word
  semanticWeight : ℚ
  deriving DecidableEq, Repr

/-- `extractSemanticComponents(word)`. -/
def extractSemanticComponents (w : Word) : List SemanticComponent :=
  (decomposeMorphemes w).map (fun m =>
    { component := m.value, semanticWeight := calculateSemanticWeight m })

/-- The deterministic part of `analyzeWord(word)` consumed by the phonetic
mapper: its `morphemes` and `semanticComponents` fields.  The `etymology`
field (network enrichment) and the phonetic-structure field are never read by
`transformWord` and are not modelled. -/
structure Etymology where
  morphemes : List Morpheme
  semanticComponents : List SemanticComponent
  deriving DecidableEq, Repr

/-- The deterministic fields of `analyzeWord(word)`. -/
def analyzeWordPure (w : Word) : Etymology :=
  { morphemes := decomposeMorphemes w,
    semanticComponents := extractSemanticComponents w }

/-! ## Phonetic mapper (`PhoneticMapper` class)

Both randomized code paths (`applyVowelHarmony`, `applyVowelVariation`) draw
from `Math.random()`.  The model threads an oracle `rnd : Nat → Nat` giving the
random draw used at character position `i`; every theorem quantifies over it. -/

/-- The five language styles. -/
inductive Style where
  | default
  | consonantShift
  | vowelHarmony
  | morphemeEmphasis
  | phoneticLogic
  deriving DecidableEq, Repr

/-- `word.indexOf(pat)` (JS `-1` is modelled as `none`), starting at offset
`acc` for the recursion. -/
def indexOfSubAux (pat : Word) : Word → Nat → Option Nat
  | hay, acc =>
    if pat <+: hay then some acc
    else match hay with
      | [] => none
      | _ :: t => indexOfSubAux pat t (acc + 1)

/-- `word.indexOf(pat)`. -/
def indexOfSub (hay pat : Word) : Option Nat := indexOfSubAux pat hay 0

/-- `word.indexOf(pat, from)`. -/
def indexOfSubFrom (hay pat : Word) (start : Nat) : Option Nat :=
  (indexOfSub (hay.drop start) pat).map (· + start)

/-- The `shiftRules` map of `applyConsonantShift`. -/
def shiftRules : List (Char × Char) :=
  [('b','p'), ('p','b'), ('d','t'), ('t','d'),
   ('g','k'), ('k','g'), ('v','f'), ('f','v'),
   ('z','s'), ('s','z'), ('j','y'), ('w','v')]

/-- `isInRootMorpheme(position, word, etymology)`: the position lies inside
the span `[word.indexOf(root.value), word.indexOf(root.value) + length)` of
some root morpheme (JS `indexOf` returning `-1` is kept as the integer `-1`,
exactly as the source arithmetic does). -/
def isInRootMorpheme (i : Nat) (w : Word) (ms : List Morpheme) : Bool :=
  ms.any (fun m =>
    decide (m.mtype = MorphemeType.root) &&
    (let start : Int := match indexOfSub w m.value with
      | some n => (n : Int)
      | none => -1
     decide ((i : Int) ≥ start ∧ (i : Int) < start + m.value.length)))

/-- `applyConsonantShift(word, etymology)`: shift a character through
`shiftRules` only when its position falls inside a root-morpheme span. -/
def applyConsonantShift (w : Word) (ms : List Morpheme) : Word :=
  w.enum.map (fun p =>
    match List.lookup p.2 shiftRules with
    | some c' => if isInRootMorpheme p.1 w ms then c' else p.2
    | none => p.2)

/-- The `harmony.front` vowel class. -/
def harmonyFront : List Char := ['e', 'i']

/-- The `harmony.back` vowel class. -/
def harmonyBack : List Char := ['a', 'o', 'u']

/-- `list[Math.floor(Math.random() * list.length)]` with random draw `n`. -/
def pickRandom (l : List Char) (n : Nat) : Char := l.getD (n % l.length) 'a'

/-- `applyVowelHarmony(word)`: count front/back vowels, pick the dominant
class (`front` only when strictly more front than back vowels), and replace
each vowel of the non-dominant class by a random member of the dominant one. -/
def applyVowelHarmony (rnd : Nat → Nat) (w : Word) : Word :=
  let frontCount := (w.filter (· ∈ harmonyFront)).length
  let backCount := (w.filter (· ∈ harmonyBack)).length
  let dominantFront := frontCount > backCount
  w.enum.map (fun p =>
    if p.2 ∈ vowels5 then
      if dominantFront ∧ p.2 ∈ harmonyBack then pickRandom harmonyFront (rnd p.1)
      else if ¬dominantFront ∧ p.2 ∈ harmonyFront then pickRandom harmonyBack (rnd p.1)
      else p.2
    else p.2)

/-- `addRootEmphasis(morpheme)`: when longer than 3 characters, duplicate the
middle character in place. -/
def addRootEmphasis (m : Word) : Word :=
  if m.length > 3 then
    let mid := m.length / 2
    m.take mid ++ [m.getD mid ' '] ++ m.drop mid
  else m

/-- `emphasizeMorpheme(morpheme, morphemeInfo)`. -/
def emphasizeMorpheme (m : Word) (info : Morpheme) : Word :=
  if info.mtype = MorphemeType.root then addRootEmphasis m else m

/-- One pass of the `applyMorphemeEmphasis` loop body over state
`(result, offset)`. -/
def morphemeEmphasisStep (st : Word × Nat) (m : Morpheme) : Word × Nat :=
  if m.mtype = MorphemeType.root then
    match indexOfSubFrom st.1 m.value st.2 with
    | some start =>
        let morphemeText := (st.1.drop start).take m.value.length
        let emphasized := emphasizeMorpheme morphemeText m
        (st.1.take start ++ emphasized ++ st.1.drop (start + m.value.length),
         start + emphasized.length)
    | none => st
  else st

/-- `applyMorphemeEmphasis(word, etymology)`. -/
def applyMorphemeEmphasis (w : Word) (ms : List Morpheme) : Word :=
  (ms.foldl morphemeEmphasisStep (w, 0)).1

/-- The `consonantClusters` table paired with `transforms[0]` — the
replacement the source actually uses; note that in the source table
`transforms[0]` is always the cluster itself. -/
def consonantClusters : List (Word × Word) :=
  [("th".data, "th".data), ("ch".data, "ch".data), ("sh".data, "sh".data),
   ("ph".data, "ph".data), ("gh".data, "gh".data), ("ck".data, "ck".data),
   ("ng".data, "ng".data)]

/-- Left-to-right, non-overlapping global replacement
(`result.replace(new RegExp(cluster, 'g'), replacement)`), with enough fuel
to consume the whole string. -/
def replaceAllAux (pat repl : Word) : Nat → Word → Word
  | 0, s => s
  | _ + 1, [] => []
  | fuel + 1, c :: t =>
      if pat ≠ [] ∧ pat <+: (c :: t) then
        repl ++ replaceAllAux pat repl fuel ((c :: t).drop pat.length)
      else
        c :: replaceAllAux pat repl fuel t

/-- Global string replacement of a literal pattern. -/
def replaceAll (s pat repl : Word) : Word := replaceAllAux pat repl s.length s

/-- `handleConsonantClusters(word)`. -/
def handleConsonantClusters (w : Word) : Word :=
  consonantClusters.foldl (fun result p =>
    if (indexOfSub result p.1).isSome then replaceAll result p.1 p.2 else result) w

/-- `applySyllableRules(word)`: the global replacement
`replace(/([aeiou])([aeiou])/g, '$1$2')` — each adjacent vowel pair is
re-emitted verbatim, scanning past consumed matches. -/
def applySyllableRules : Word → Word
  | [] => []
  | [c] => [c]
  | c1 :: c2 :: t =>
      if c1 ∈ vowels5 ∧ c2 ∈ vowels5 then c1 :: c2 :: applySyllableRules t
      else c1 :: applySyllableRules (c2 :: t)
  termination_by w => w.length

/-- Maximal runs of equal characters, in order, with their multiplicities. -/
def runsOf : Word → List (Char × Nat)
  | [] => []
  | c :: t =>
      match runsOf t with
      | [] => [(c, 1)]
      | (c', n) :: rest => if c' = c then (c, n + 1) :: rest else (c, 1) :: (c', n) :: rest

/-- Rebuild a word from its run representation. -/
def flattenRuns (rs : List (Char × Nat)) : Word :=
  rs.flatMap (fun p => List.replicate p.2 p.1)

/-- Collapse every maximal run through the length transformer `f`. -/
def collapseRuns (f : Nat → Nat) (w : Word) : Word :=
  flattenRuns ((runsOf w).map (fun p => (p.1, f p.2)))

/-- `maintainPhoneticIntegrity(word)`: `replace(/(.)\1{2,}/g, '$1$1')` —
every run of three or more equal characters becomes two. -/
def maintainPhoneticIntegrity (w : Word) : Word :=
  collapseRuns (fun n => if n ≥ 3 then 2 else n) w

/-- `applyPhoneticLogic(word, etymology)`. -/
def applyPhoneticLogic (w : Word) : Word :=
  maintainPhoneticIntegrity (applySyllableRules (handleConsonantClusters w))

/-- The leading-run collapse `replace(/^(.)\1+/, '$1')`. -/
def firstRunTo1 (w : Word) : Word :=
  match runsOf w with
  | [] => []
  | r :: rest => flattenRuns ((r.1, 1) :: rest)

/-- The trailing-run collapse `replace(/(.)\1+$/, '$1')`. -/
def lastRunTo1 (w : Word) : Word :=
  match (runsOf w).reverse with
  | [] => []
  | r :: rest => flattenRuns (((r.1, 1) :: rest).reverse)

/-- `applyPhoneticConsistency(word)`: collapse runs of length ≥ 4 to 2, then
the leading run to 1, then the trailing run to 1. -/
def applyPhoneticConsistency (w : Word) : Word :=
  lastRunTo1 (firstRunTo1 (collapseRuns (fun n => if n ≥ 4 then 2 else n) w))

/-- The `mildShifts` map of `applyMildConsonantShift`.  The source `Map` also
carries a key `'ph'`, which a single-character lookup can never hit and which
is therefore unrepresentable with `Char` keys. -/
def mildShifts : List (Char × Word) :=
  [('c', "k".data), ('k', "c".data), ('f', "ph".data)]

/-- `applyMildConsonantShift(word)`. -/
def applyMildConsonantShift (w : Word) : Word :=
  w.flatMap (fun c =>
    match List.lookup c mildShifts with
    | some r => r
    | none => [c])

/-- `applyVowelVariation(word)`: each of `aeiou` is kept or doubled according
to a random draw per occurrence (`variants[Math.floor(Math.random() * 2)]`
over the table `{'a': ['a','aa'], …}`). -/
def applyVowelVariation (rnd : Nat → Nat) (w : Word) : Word :=
  w.enum.flatMap (fun p =>
    if p.2 ∈ vowels5 then
      (if rnd p.1 % 2 = 0 then [p.2] else [p.2, p.2])
    else [p.2])

/-- `calculateOverallSemanticWeight(etymology)`: the mean of the component
weights.  (The JS null-guard returning 0.5 never fires in the pipeline, where
`semanticComponents` is always an array; for the empty component list the JS
value is `NaN` while the model's rational division yields 0 — every theorem
touching this function assumes a non-empty component list.) -/
def calculateOverallSemanticWeight (comps : List SemanticComponent) : ℚ :=
  (comps.map (·.semanticWeight)).sum / comps.length

/-- `applyDefaultTransformation(word, etymology)`. -/
def applyDefaultTransformation (rnd : Nat → Nat) (comps : List SemanticComponent)
    (w : Word) : Word :=
  let semanticWeight := calculateOverallSemanticWeight comps
  let transformationIntensity := min 1 (semanticWeight * (5/10))
  let r1 := if transformationIntensity > 3/10 then applyMildConsonantShift w else w
  if transformationIntensity > 6/10 then applyVowelVariation rnd r1 else r1

/-- `applySystematicTransformations(word, etymology, style)`. -/
def applySystematicTransformations (rnd : Nat → Nat) (style : Style)
    (etym : Etymology) (w : Word) : Word :=
  match style with
  | .consonantShift => applyConsonantShift w etym.morphemes
  | .vowelHarmony => applyVowelHarmony rnd w
  | .morphemeEmphasis => applyMorphemeEmphasis w etym.morphemes
  | .phoneticLogic => applyPhoneticLogic w
  | .default => applyDefaultTransformation rnd etym.semanticComponents w

/-- `transformPrefix(word, morpheme, style)` — returns the word unchanged. -/
def transformPrefixMorpheme (w : Word) (_ : Morpheme) (_ : Style) : Word := w

/-- `transformSuffix(word, morpheme, style)` — returns the word unchanged. -/
def transformSuffixMorpheme (w : Word) (_ : Morpheme) (_ : Style) : Word := w

/-- `transformRoot(word, morpheme, style)` — returns the word unchanged. -/
def transformRootMorpheme (w : Word) (_ : Morpheme) (_ : Style) : Word := w

/-- `applyMorphemeBasedRules(word, morphemes, style)`. -/
def applyMorphemeBasedRules (w : Word) (ms : List Morpheme) (style : Style) : Word :=
  ms.foldl (fun result m =>
    match m.mtype with
    | .pre => transformPrefixMorpheme result m style
    | .suf => transformSuffixMorpheme result m style
    | .root => transformRootMorpheme result m style) w

/-- `transformWord(word, etymology, style)`: lowercase, then the systematic
style transformation, then morpheme-based rules, then phonetic consistency. -/
def transformWord (rnd : Nat → Nat) (style : Style) (etym : Etymology) (w : Word) : Word :=
  let t1 := toLower w
  let t2 := applySystematicTransformations rnd style etym t1
  let t3 := applyMorphemeBasedRules t2 etym.morphemes style
  applyPhoneticConsistency t3

/-- The `phoneticMap` of `getPhoneme` (symbolic pronunciation mode). -/
def phoneticMapSym : List (Char × Word) :=
  [('a', "æ".data), ('e', "ɛ".data), ('i', "ɪ".data), ('o', "ɔ".data), ('u', "ʌ".data),
   ('b', "b".data), ('c', "k".data), ('d', "d".data), ('f', "f".data), ('g', "g".data),
   ('h', "h".data), ('j', "ʤ".data), ('k', "k".data), ('l', "l".data), ('m', "m".data),
   ('n', "n".data), ('p', "p".data), ('q', "kw".data), ('r', "r".data), ('s', "s".data),
   ('t', "t".data), ('v', "v".data), ('w', "w".data), ('x', "ks".data), ('y', "j".data),
   ('z', "z".data)]

/-- `getPhoneme(char, word, position)`. -/
def getPhoneme (c : Char) : Word :=
  (List.lookup (toLowerChar c) phoneticMapSym).getD [c]

/-- `generatePronunciation(sigmentWord)` (symbolic mode). -/
def generatePronunciation (w : Word) : Word :=
  ['/'] ++ w.flatMap getPhoneme ++ ['/']

/-- The `asciiCombinations` digraph table of `getAsciiPhoneme`. -/
def asciiCombinations : List (Word × Word) :=
  [("th".data, "th".data), ("ch".data, "ch".data), ("sh".data, "sh".data),
   ("ph".data, "f".data), ("gh".data, "g".data), ("ck".data, "k".data),
   ("ng".data, "ng".data), ("qu".data, "kw".data)]

/-- The single-character `asciiPhoneticMap` (note: the source table carries
no entry for `'q'`, which therefore falls through to the identity default). -/
def asciiPhoneticMap : List (Char × Word) :=
  [('a', "a".data), ('e', "e".data), ('i', "i".data), ('o', "o".data), ('u', "u".data),
   ('y', "y".data),
   ('b', "b".data), ('c', "k".data), ('d', "d".data), ('f', "f".data), ('g', "g".data),
   ('h', "h".data), ('j', "j".data), ('k', "k".data), ('l', "l".data), ('m', "m".data),
   ('n', "n".data), ('p', "p".data), ('r', "r".data), ('s', "s".data),
   ('t', "t".data), ('v', "v".data), ('w', "w".data), ('x', "ks".data), ('z', "z".data)]

/-- `getAsciiPhoneme(char, word, position)` with the `_skipNext` instance flag
made explicit: takes the flag's value before the call and returns the emitted
output together with the flag's value after the call.  Faithful to the source
order of checks: the two-character combination table is consulted *before* the
skip flag. -/
def getAsciiPhoneme (w : Word) (i : Nat) (skip : Bool) : Word × Bool :=
  let lowerChar := toLowerChar (w.getD i ' ')
  let nextChar : Word := match w.get? (i + 1) with
    | some c => [toLowerChar c]
    | none => []
  let twoChar := lowerChar :: nextChar
  match List.lookup twoChar asciiCombinations with
  | some out => (out, true)
  | none =>
      if skip then ([], false)
      else ((List.lookup lowerChar asciiPhoneticMap).getD [lowerChar], false)

/-- `generateAsciiPronunciation(sigmentWord)`: left-to-right scan threading
the `_skipNext` flag (falsy before the first character of a word). -/
def generateAsciiPronunciation (w : Word) : Word :=
  ((List.range w.length).foldl (fun st i =>
    let r := getAsciiPhoneme w i st.2
    (st.1 ++ r.1, r.2)) (([] : Word), false)).1

/-- The result record of `mapWordToSigment` (fields not consulted by any
claim — applied-rule diagnostics, etymological basis, phonetic structure —
are not modelled). -/
structure SigmentMapping where
  english : Word
  sigment : Word
  pronunciation : Word
  deriving DecidableEq, Repr

/-- `mapWordToSigment(englishWord, etymologyAnalysis, languageStyle, options)`. -/
def mapWordToSigment (rnd : Nat → Nat) (style : Style) (ascii : Bool)
    (w : Word) (etym : Etymology) : SigmentMapping :=
  let sig := transformWord rnd style etym w
  { english := w,
    sigment := sig,
    pronunciation := if ascii then generateAsciiPronunciation sig
                     else generatePronunciation sig }

/-! ## Language generator (`src/language-generator.js`)

JS `Map` objects keyed by strings are modelled as insertion-ordered
association lists with `Map.set` replace-or-append semantics, so `Map.size`
is the list length. -/

/-- Generic JS `Map.get`: value of the first (and, for maps built with
`mapSet`, only) binding of `k`. -/
def assocGet? {α β : Type} [DecidableEq α] (m : List (α × β)) (k : α) : Option β :=
  (m.find? (fun p => decide (p.1 = k))).map (·.2)

/-- Generic JS `Map.set`: replace the value in place when the key exists,
append a new binding otherwise. -/
def mapSet {α β : Type} [DecidableEq α] : List (α × β) → α → β → List (α × β)
  | [], k, v => [(k, v)]
  | (k', v') :: rest, k, v =>
      if k' = k then (k', v) :: rest else (k', v') :: mapSet rest k v

/-- Generic JS `Map.has`. -/
def mapHas {α β : Type} [DecidableEq α] (m : List (α × β)) (k : α) : Bool :=
  m.any (fun p => decide (p.1 = k))

/-- The definition payload returned by the enrichment service (its text is
never analysed by the core, only stored). -/
abbrev Definitions := List Word

/-- A vocabulary entry.  Fields the verified algorithms never consult
(`etymology`, `phoneticStructure`, `transformationRules`, `partOfSpeech`,
`frequency`, the `created` timestamp) are not modelled. -/
structure WordEntry where
  english : Word
  sigment : Word
  pronunciation : Word
  definitions : Definitions
  deriving DecidableEq, Repr

/-- A vocabulary: JS `Map` from source word to entry. -/
abbrev Vocabulary := List (Word × WordEntry)

/-- The mutable language object: its `vocabulary` and `etymologicalMaps`
maps (the latter keyed by constructed word). -/
structure Language where
  vocabulary : Vocabulary
  etymologicalMaps : Vocabulary
  deriving DecidableEq, Repr

/-- Generation configuration: the language style, the
`asciiPronunciation` option, the random-draw oracle threaded into the
mapper, and the definition-enrichment oracle.  `defOracle w = none` models
`ollamaClient.getDefinitions(w)` throwing (the error is caught and the word
skipped); `some defs` models a successful response — or the fixed local
default when no client is configured. -/
structure GenConfig where
  style : Style
  ascii : Bool
  rnd : Nat → Nat
  defOracle : Word → Option Definitions

/-- `processWord(language, englishWord)`: analyze, map to a constructed
word, fetch definitions, and insert into the two maps; any thrown error is
caught and the insertion skipped. -/
def processWord (cfg : GenConfig) (lang : Language) (w : Word) : Language :=
  match cfg.defOracle w with
  | none => lang
  | some defs =>
      let etym := analyzeWordPure w
      let m := mapWordToSigment cfg.rnd cfg.style cfg.ascii w etym
      let entry : WordEntry :=
        { english := w, sigment := m.sigment,
          pronunciation := m.pronunciation, definitions := defs }
      { vocabulary := mapSet lang.vocabulary w entry,
        etymologicalMaps := mapSet lang.etymologicalMaps m.sigment entry }

/-- Accumulator of the `processWordsBatch` loop: the language, the
`batchState.processedWords` set (as a list with membership semantics) and
the `processed` counter. -/
structure BatchAccum where
  lang : Language
  processedWords : List Word
  processed : Nat

/-- One iteration of the `processWordsBatch` word loop (data path): a word
is processed unless it is blank or already in `processedWords`.  After
`processWord` returns — it catches its own errors — the word is added to
`processedWords` and counted unconditionally, as in the source. -/
def batchStep (cfg : GenConfig) (s : BatchAccum) (w : Word) : BatchAccum :=
  let t := trim w
  if t ≠ [] ∧ t ∉ s.processedWords then
    { lang := processWord cfg s.lang t,
      processedWords := t :: s.processedWords,
      processed := s.processed + 1 }
  else s

/-- The `processWordsBatch` data path over a word list, from index 0 with an
empty `processedWords` set (fresh, non-resumed run with no pause or stop
signal raised). -/
def processWordsBatchRun (cfg : GenConfig) (lang : Language) (words : List Word) :
    BatchAccum :=
  words.foldl (batchStep cfg) ⟨lang, [], 0⟩

/-- The result of `addWordsToLanguage` (dictionary paths and reconstruction
recommendation omitted). -/
structure AddWordsResult where
  lang : Language
  addedCount : Nat
  skippedCount : Nat

/-- `addWordsToLanguage(languageName, newWords, options)`: filter out blank
words and words already in the vocabulary (reported as skipped), then batch
process the remainder; `skippedCount` is `newWords.length - addedCount`. -/
def addWordsToLanguage (cfg : GenConfig) (lang : Language) (newWords : List Word) :
    AddWordsResult :=
  let wordsToAdd := (newWords.filter (fun w =>
      !(trim w).isEmpty && !mapHas lang.vocabulary (trim w))).map trim
  if wordsToAdd.isEmpty then
    { lang := lang, addedCount := 0, skippedCount := newWords.length }
  else
    let r := processWordsBatchRun cfg lang wordsToAdd
    { lang := r.lang, addedCount := r.processed,
      skippedCount := newWords.length - r.processed }

/-! ### Consistency analyzer (`analyzePhoneticPatterns`, `calculateConsistencyScore`) -/

/-- Inner frequency map: constructed-character string → count. -/
abbrev TransformMap := List (Word × Nat)

/-- Outer map: source character → inner frequency map. -/
abbrev CharTransformMap := List (Char × TransformMap)

/-- `transforms.set(sig, (transforms.get(sig) || 0) + 1)`. -/
def bumpTransform : TransformMap → Word → TransformMap
  | [], t => [(t, 1)]
  | (t', n) :: rest, t =>
      if t' = t then (t', n + 1) :: rest else (t', n) :: bumpTransform rest t

/-- Record one observation `(source char c, target string t)` in an outer
map (create the inner map on first sight of `c`, as the source does). -/
def bumpChar : CharTransformMap → Char → Word → CharTransformMap
  | [], c, t => [(c, bumpTransform [] t)]
  | (c', inner) :: rest, c, t =>
      if c' = c then (c', bumpTransform inner t) :: rest
      else (c', inner) :: bumpChar rest c t

/-- The per-index observations of one vocabulary entry: for each index of
the source word, the lowercased source character paired with
`entry.sigment[i]?.toLowerCase() || ''` (the empty string when the
constructed word is shorter). -/
def entryObservations (english sigment : Word) : List (Char × Word) :=
  (List.range english.length).map (fun i =>
    (toLowerChar (english.getD i ' '),
     match sigment.get? i with
     | some c => [toLowerChar c]
     | none => []))

/-- All observations of a vocabulary, in entry order. -/
def vocabObservations (vocab : Vocabulary) : List (Char × Word) :=
  vocab.flatMap (fun p => entryObservations p.1 p.2.sigment)

/-- The two transformation-frequency maps of `analyzePhoneticPatterns`
(the unused `morphemeRules` and the `lengthPatterns` map, which the score
never reads, are not modelled). -/
structure PhoneticPatterns where
  vowelTransformations : CharTransformMap
  consonantShifts : CharTransformMap
  deriving DecidableEq, Repr

/-- Record one observation in the pattern state: into the vowel map when the
source char is in `'aeiou'`, into the consonant map when it is in
`'bcdfghjklmnpqrstvwxyz'`. -/
def patternStep (st : PhoneticPatterns) (ob : Char × Word) : PhoneticPatterns :=
  let st1 := if ob.1 ∈ vowels5 then
      { st with vowelTransformations := bumpChar st.vowelTransformations ob.1 ob.2 }
    else st
  if ob.1 ∈ consonants21 then
    { st1 with consonantShifts := bumpChar st1.consonantShifts ob.1 ob.2 }
  else st1

/-- `analyzePhoneticPatterns(language)` (score-relevant part). -/
def analyzePhoneticPatterns (vocab : Vocabulary) : PhoneticPatterns :=
  (vocabObservations vocab).foldl patternStep ⟨[], []⟩

/-- `Math.max(...counts)` for a non-empty count list (folded from 0). -/
def listMaxNat (l : List Nat) : Nat := l.foldl max 0

/-- The total score contributed by one transformation map:
`(maxCount / totalCount) * 100` summed over its entries. -/
def mapScore (m : CharTransformMap) : ℚ :=
  (m.map (fun p =>
    let counts := p.2.map (·.2)
    ((listMaxNat counts : ℚ) / (counts.sum : ℚ)) * 100)).sum

/-- `calculateConsistencyScore(patterns, totalWords)` (`totalWords` is
unused by the source body). -/
def calculateConsistencyScore (pats : PhoneticPatterns) : ℚ :=
  let totalScore := mapScore pats.vowelTransformations + mapScore pats.consonantShifts
  let factors := pats.vowelTransformations.length + pats.consonantShifts.length
  if factors > 0 then totalScore / (factors : ℚ) else 0

/-- The consistency score of a vocabulary. -/
def consistencyScore (vocab : Vocabulary) : ℚ :=
  calculateConsistencyScore (analyzePhoneticPatterns vocab)

/-! ### Reconstruction (`reconstructDictionary`) -/

/-- One `changes` record (the pronunciation pair is carried along but never
consulted by any claim). -/
structure ChangeRecord where
  english : Word
  oldSigment : Word
  newSigment : Word
  deriving DecidableEq, Repr

/-- The result of `reconstructDictionary` (the consistency-improvement
report is omitted; it is not consulted by any claim). -/
structure ReconstructionResult where
  lang : Language
  reconstructedWords : Nat
  changedWords : Nat

/-- One iteration of the reconstruction loop: reprocess the word into the
temporary language and push a change record when the freshly produced entry
exists and its constructed form differs from the original. -/
def reconStep (cfg : GenConfig) (orig : Vocabulary)
    (st : Language × List ChangeRecord) (w : Word) : Language × List ChangeRecord :=
  let lang' := processWord cfg st.1 w
  match assocGet? lang'.vocabulary w, assocGet? orig w with
  | some ne, some oe =>
      if ne.sigment ≠ oe.sigment then (lang', st.2 ++ [⟨w, oe.sigment, ne.sigment⟩])
      else (lang', st.2)
  | _, _ => (lang', st.2)

/-- `reconstructDictionary(language, options)`: reprocess every existing
source word into a temporary language that starts with an empty vocabulary
(but shares the `etymologicalMaps` object, as the JS shallow copy does).
`reconstructed` is incremented on *every* loop iteration, successful or not,
and the original vocabulary is replaced whenever `reconstructed > 0`. -/
def reconstructDictionary (cfg : GenConfig) (lang : Language) : ReconstructionResult :=
  let originalVocabulary := lang.vocabulary
  let tempLang : Language := { vocabulary := [], etymologicalMaps := lang.etymologicalMaps }
  let vocabularyList := originalVocabulary.map (·.1)
  let res := vocabularyList.foldl (reconStep cfg originalVocabulary) (tempLang, [])
  let reconstructed := vocabularyList.length
  { lang := { vocabulary := if reconstructed > 0 then res.1.vocabulary else originalVocabulary,
              etymologicalMaps := res.1.etymologicalMaps },
    reconstructedWords := reconstructed,
    changedWords := res.2.length }

/-! ### Batch orchestrator control path (`processWordsBatch` loop,
`setupBatchSignalHandlers`, `setupPauseHandler`)

The loop is single-threaded; the pause-file poll (a 2-second `setInterval`
callback) and the `SIGINT` handler run only at `await` boundaries.  The
model is a labelled transition system whose environment-driven labels
(`pollDetect`, `pollRelease`, `sigint`) may interleave with the loop's own
labels at any point, which over-approximates the real interleavings. -/

/-- Loop phase: between words, or with a word in flight inside
`processWord`. -/
inductive BatchPhase where
  | idle
  | inFlight
  deriving DecidableEq, Repr

/-- Orchestrator state: loop index `i`, phase, the language accumulator,
the `processedWords` set, the `isPaused` and `shouldStop` flags, and whether
the run has returned (`halted`). -/
structure OrchestratorState where
  i : Nat
  phase : BatchPhase
  lang : Language
  processedWords : List Word
  isPaused : Bool
  shouldStop : Bool
  halted : Bool

/-- Transition labels of the orchestrator. -/
inductive BatchLabel where
  | startWord
  | finishWord
  | skipWord
  | pollDetect
  | pollRelease
  | sigint
  | stopExit
  | completeExit
  deriving DecidableEq, Repr

/-- The orchestrator transition relation.  Loop labels follow the source
loop body: the stop check, then the pause wait (a word can only start when
`isPaused` is false), then the duplicate/blank skip, then `processWord`;
a word in flight can only leave the `inFlight` phase through `finishWord`.
Environment labels model the pause-file poll observing/clearing the pause
signal and the `SIGINT` handler. -/
inductive BatchStep (cfg : GenConfig) (words : List Word) :
    OrchestratorState → BatchLabel → OrchestratorState → Prop where
  | startWord (s : OrchestratorState) (w : Word) :
      s.halted = false → s.phase = .idle → s.shouldStop = false →
      s.isPaused = false → words.get? s.i = some w →
      trim w ≠ [] → trim w ∉ s.processedWords →
      BatchStep cfg words s .startWord { s with phase := .inFlight }
  | finishWord (s : OrchestratorState) (w : Word) :
      s.phase = .inFlight → words.get? s.i = some w →
      BatchStep cfg words s .finishWord
        { s with phase := .idle,
                 lang := processWord cfg s.lang (trim w),
                 processedWords := trim w :: s.processedWords,
                 i := s.i + 1 }
  | skipWord (s : OrchestratorState) (w : Word) :
      s.halted = false → s.phase = .idle → s.shouldStop = false →
      s.isPaused = false → words.get? s.i = some w →
      (trim w = [] ∨ trim w ∈ s.processedWords) →
      BatchStep cfg words s .skipWord { s with i := s.i + 1 }
  | pollDetect (s : OrchestratorState) :
      s.isPaused = false →
      BatchStep cfg words s .pollDetect { s with isPaused := true }
  | pollRelease (s : OrchestratorState) :
      s.isPaused = true →
      BatchStep cfg words s .pollRelease { s with isPaused := false }
  | sigint (s : OrchestratorState) :
      s.shouldStop = false →
      BatchStep cfg words s .sigint { s with shouldStop := true }
  | stopExit (s : OrchestratorState) :
      s.halted = false → s.phase = .idle → s.shouldStop = true →
      s.i < words.length →
      BatchStep cfg words s .stopExit { s with halted := true }
  | completeExit (s : OrchestratorState) :
      s.halted = false → s.phase = .idle → s.shouldStop = false →
      words.length ≤ s.i →
      BatchStep cfg words s .completeExit { s with halted := true }

/-- The initial orchestrator state for a fresh (non-resumed) run. -/
def initialState (lang : Language) : OrchestratorState :=
  { i := 0, phase := .idle, lang := lang, processedWords := [],
    isPaused := false, shouldStop := false, halted := false }

/-- States reachable from a given start state. -/
inductive BatchReachable (cfg : GenConfig) (words : List Word)
    (s₀ : OrchestratorState) : OrchestratorState → Prop where
  | refl : BatchReachable cfg words s₀ s₀
  | step {s s' : OrchestratorState} {l : BatchLabel} :
      BatchReachable cfg words s₀ s → BatchStep cfg words s l s' →
      BatchReachable cfg words s₀ s'

/-- The language accumulated after the first `k` words of a run have been
fully processed. -/
def expectedLang (cfg : GenConfig) (lang : Language) (words : List Word) (k : Nat) :
    Language :=
  (words.take k).foldl (fun lg w => processWord cfg lg (trim w)) lang

/-! ## Specification-side definitions

Independent formalizations of what the specification's sentences say, used
to compare against the source-derived definitions above. -/

/-- All target strings observed for source character `c`. -/
def targetsFor (obs : List (Char × Word)) (c : Char) : List Word :=
  (obs.filter (fun p => decide (p.1 = c))).map (·.2)

/-- The spec's per-character ratio: most-frequent-target-count over total
observations, as a percentage. -/
def specCharRatio (obs : List (Char × Word)) (c : Char) : ℚ :=
  let ts := targetsFor obs c
  let most : ℕ := ts.toFinset.sup (fun t => ts.count t)
  ((most : ℚ) / (ts.length : ℚ)) * 100

/-- The distinct source characters of class `cls` observed. -/
def observedSources (obs : List (Char × Word)) (cls : List Char) : Finset Char :=
  ((obs.map (·.1)).filter (· ∈ cls)).toFinset

/-- The spec's consistency score: the arithmetic mean of `specCharRatio`
over all distinct source vowels and consonants observed, 0 when none are. -/
def specConsistencyScore (vocab : Vocabulary) : ℚ :=
  let obs := vocabObservations vocab
  let s := observedSources obs vowels5 ∪ observedSources obs consonants21
  if s.card = 0 then 0 else (∑ c in s, specCharRatio obs c) / (s.card : ℚ)

/-- Number of positions at which a maximal run of characters satisfying `p`
starts (positional characterization of maximal-contiguous-run count). -/
def runStartCount (p : Char → Bool) (w : Word) : Nat :=
  ((List.range w.length).filter (fun i =>
    p (w.getD i ' ') && (decide (i = 0) || !p (w.getD (i - 1) ' ')))).length

/-- The claimed syllable count: maximal contiguous runs of the vowels
`aeiou` (case-insensitive), minimum 1. -/
def claimSyllableCount (w : Word) : Nat :=
  max (runStartCount (fun c => decide (c ∈ vowels5)) (toLower w)) 1

/-- The claim's plain-character renderer: scan left to right, prefer a
two-character digraph match and then consume *both* characters, otherwise
render one character through the single-character table. -/
def specAsciiPron : Word → Word
  | [] => []
  | c :: t =>
      let lc := toLowerChar c
      match t with
      | c2 :: t2 =>
          (match List.lookup [lc, toLowerChar c2] asciiCombinations with
           | some out => out ++ specAsciiPron t2
           | none => (List.lookup lc asciiPhoneticMap).getD [lc] ++ specAsciiPron (c2 :: t2))
      | [] => (List.lookup lc asciiPhoneticMap).getD [lc]

/-- The consonant-shift substitution as a total character function:
the paired character for table letters, the identity otherwise. -/
def shiftChar (c : Char) : Char := (List.lookup c shiftRules).getD c

/-- The shiftable-letter set named by the claim (C5): `b,d,g,v,z,j,w`. -/
def claimShiftableChars : List Char := ['b', 'd', 'g', 'v', 'z', 'j', 'w']

/-! ## Concrete fixtures for witnesses and counterexamples -/

/-- A configuration whose enrichment oracle always succeeds. -/
def okCfg : GenConfig :=
  { style := .consonantShift, ascii := true, rnd := fun _ => 0,
    defOracle := fun _ => some [] }

/-- A configuration whose enrichment oracle always throws — every
`processWord` call fails and inserts nothing. -/
def failCfg : GenConfig :=
  { style := .consonantShift, ascii := true, rnd := fun _ => 0,
    defOracle := fun _ => none }

/-- A concrete vocabulary entry for the word `tree`. -/
def treeEntry : WordEntry :=
  { english := "tree".data, sigment := "dre".data,
    pronunciation := "dre".data, definitions := [] }

/-- A language whose vocabulary holds the single word `tree`. -/
def treeLang : Language :=
  { vocabulary := [("tree".data, treeEntry)], etymologicalMaps := [] }

/-- The empty language. -/
def emptyLang : Language := { vocabulary := [], etymologicalMaps := [] }

/-- One hundred distinct three-character words `w00` … `w99`. -/
def hundredWords : List Word :=
  (List.range 100).map (fun k => ['w', Char.ofNat (48 + k / 10), Char.ofNat (48 + k % 10)])

/-- A word contains no (ASCII) uppercase letter. -/
def NoUpper (w : Word) : Prop := ∀ c ∈ w, isUpperChar c = false

/-! # Theorems -/

/-! ## Shared helper lemmas -/

/-- The three morpheme-based rule functions return the word unchanged, so
`applyMorphemeBasedRules` is the identity. -/
theorem applyMorphemeBasedRules_eq (w : Word) (ms : List Morpheme) (style : Style) :
    applyMorphemeBasedRules w ms style = w := by
  induction ms generalizing w with
  | nil => rfl
  | cons m rest ih =>
      show List.foldl _ _ (m :: rest) = w
      rw [List.foldl_cons]
      have hstep : (match m.mtype with
          | .pre => transformPrefixMorpheme w m style
          | .suf => transformSuffixMorpheme w m style
          | .root => transformRootMorpheme w m style) = w := by
        cases m.mtype <;> rfl
      rw [hstep]
      exact ih w

/-- Every semantic weight assigned to a morpheme is at most 1. -/
theorem calculateSemanticWeight_le_one (m : Morpheme) : calculateSemanticWeight m ≤ 1 := by
  unfold calculateSemanticWeight
  cases m.mtype <;> norm_num

/-- The average semantic weight of a word's components is at most 1. -/
theorem overallSemanticWeight_le_one (w : Word) :
    calculateOverallSemanticWeight (extractSemanticComponents w) ≤ 1 := by
  unfold calculateOverallSemanticWeight
  rcases Nat.eq_zero_or_pos (extractSemanticComponents w).length with h0 | hpos
  · rw [h0]
    simp
  · have hall : ∀ x ∈ (extractSemanticComponents w).map (·.semanticWeight), x ≤ (1 : ℚ) := by
      intro x hx
      rcases List.mem_map.mp hx with ⟨c, hc, rfl⟩
      rcases List.mem_map.mp
        (show c ∈ (decomposeMorphemes w).map
          (fun m => SemanticComponent.mk m.value (calculateSemanticWeight m)) from hc) with
        ⟨mm, _, rfl⟩
      simpa using calculateSemanticWeight_le_one mm
    have hsum : ((extractSemanticComponents w).map (·.semanticWeight)).sum
        ≤ ((extractSemanticComponents w).length : ℚ) := by
      have := List.sum_le_card_nsmul ((extractSemanticComponents w).map (·.semanticWeight)) 1 hall
      simpa using this
    have hlen : (0 : ℚ) < ((extractSemanticComponents w).length : ℚ) := by exact_mod_cast hpos
    rw [div_le_one hlen]
    exact hsum

/-- `applyDefaultTransformation` in terms of the semantic weight: the mild
consonant substitution fires exactly when the weight exceeds 0.6 (the
compared quantity is `min(1, weight * 0.5)` against 0.3), and the
vowel-variation branch is unreachable for weights at most 1. -/
theorem applyDefaultTransformation_eq (rnd : Nat → Nat) (comps : List SemanticComponent)
    (v : Word) (hle : calculateOverallSemanticWeight comps ≤ 1) :
    applyDefaultTransformation rnd comps v =
      (if 3/5 < calculateOverallSemanticWeight comps
       then applyMildConsonantShift v else v) := by
  have hle' := hle
  set wt := calculateOverallSemanticWeight comps with hwt
  have hmin : min (1 : ℚ) (wt * (5/10)) ≤ 1/2 := by
    have : wt * (5/10) ≤ 1/2 := by nlinarith
    exact le_trans (min_le_right _ _) this
  have hno : ¬ (6/10 : ℚ) < min 1 (wt * (5/10)) := by
    intro h
    nlinarith [lt_of_lt_of_le h hmin]
  have hiff : ((3:ℚ)/10 < min 1 (wt * (5/10))) ↔ (3/5 < wt) := by
    rw [lt_min_iff]
    constructor
    · rintro ⟨-, h⟩
      nlinarith
    · intro h
      constructor
      · norm_num
      · nlinarith
  simp only [applyDefaultTransformation, gt_iff_lt, ← hwt]
  rw [if_neg hno]
  by_cases h : (3 : ℚ)/5 < wt
  · rw [if_pos (hiff.mpr h), if_pos h]
  · rw [if_neg (fun hc => h (hiff.mp hc)), if_neg h]

/-- C9: on input `ngh` the plain-character renderer matches the digraph
`ng`, yet the consumed second character `g` is rendered again as the start
of the overlapping digraph `gh` (the combination table is consulted before
the skip flag), producing `ngg`; the claimed consume-both-characters scan
produces `ngh`. -/
theorem c9_ascii_digraph_overlap_bug :
    generateAsciiPronunciation "ngh".data = "ngg".data ∧
    specAsciiPron "ngh".data = "ngh".data ∧
    generateAsciiPronunciation "ngh".data ≠ specAsciiPron "ngh".data := by
  decide

/-- C8 counterexample: `estimateSyllables` counts maximal `[aeiouy]` runs —
`y` included — so `yoyo` is a single run and yields 1, while the claimed
count over the vowels `aeiou` alone yields 2. -/
theorem c8_yoyo_counterexample :
    estimateSyllables "yoyo".data = 1 ∧ claimSyllableCount "yoyo".data = 2 ∧
    estimateSyllables "yoyo".data ≠ claimSyllableCount "yoyo".data := by
  decide

/-- C4: evaluating `reconstructDictionary` on a one-word vocabulary with an
enrichment oracle that always throws: no word is successfully reprocessed
(the rebuilt vocabulary is empty), yet `reconstructed` — incremented on
every loop iteration regardless of success — is 1, so the guard
`reconstructed > 0` replaces the original non-empty vocabulary with the
empty one. -/
theorem c4_reconstruction_wipes_on_total_failure :
    (reconstructDictionary failCfg treeLang).lang.vocabulary = [] ∧
    (reconstructDictionary failCfg treeLang).reconstructedWords = 1 ∧
    treeLang.vocabulary ≠ [] := by
  refine ⟨rfl, rfl, by decide⟩

/-- C6 counterexample: the word `-ful` decomposes to a single suffix
morpheme of semantic weight 0.4 > 0.3, yet the default style leaves it
unchanged — the threshold is compared against
`min(1, weight * 0.5) = 0.2`, not against the weight — although the mild
substitution would have changed it (`f` → `ph`). -/
theorem c6_ful_counterexample :
    calculateOverallSemanticWeight (extractSemanticComponents "-ful".data) = 2/5 ∧
    (3/10 : ℚ) < 2/5 ∧
    transformWord (fun _ => 0) .default (analyzeWordPure "-ful".data) "-ful".data
      = "-ful".data ∧
    applyMildConsonantShift "-ful".data = "-phul".data ∧
    ("-ful".data : Word) ≠ "-phul".data := by
  have hcomp : extractSemanticComponents "-ful".data =
      [{ component := "-ful".data, semanticWeight := 4/10 }] := by rfl
  have hwt : calculateOverallSemanticWeight (extractSemanticComponents "-ful".data)
      = 2/5 := by
    rw [hcomp]
    unfold calculateOverallSemanticWeight
    norm_num
  refine ⟨hwt, by norm_num, ?_, by decide, by decide⟩
  show applyPhoneticConsistency (applyMorphemeBasedRules
      (applyDefaultTransformation (fun _ => 0)
        (extractSemanticComponents "-ful".data) (toLower "-ful".data))
      (analyzeWordPure "-ful".data).morphemes .default) = "-ful".data
  rw [applyDefaultTransformation_eq _ _ _ (overallSemanticWeight_le_one _), hwt]
  rw [if_neg (by norm_num : ¬ (3:ℚ)/5 < 2/5)]
  rw [applyMorphemeBasedRules_eq]
  decide

/-- C5 counterexample: `computer` decomposes to a pure root and contains
none of the claim's shiftable letters `b,d,g,v,z,j,w`, so by the claim it
should pass through unchanged; the source's symmetric table also shifts
`p→b` and `t→d`, producing `combuder`. -/
theorem c5_computer_counterexample :
    decomposeMorphemes "computer".data = [Morpheme.mk .root "computer".data] ∧
    (∀ c ∈ "computer".data, c ∉ claimShiftableChars) ∧
    applyConsonantShift "computer".data (decomposeMorphemes "computer".data)
      = "combuder".data ∧
    ("combuder".data : Word) ≠ "computer".data := by
  refine ⟨by decide, by decide, by decide, by decide⟩

/-- C6 (amended): the default style compares `min(1, weight * 0.5)` — not
the weight itself — against the thresholds, so the mild paired consonant
substitution (c↔k, f→ph) fires exactly when the average semantic weight
exceeds 0.6, and the vowel-doubling branch (which would need
`min(1, weight * 0.5) > 0.6`) is never taken since the weight is at most 1. -/
theorem c6_default_style_thresholds (rnd : Nat → Nat) (w v : Word)
    (_hw : decomposeMorphemes w ≠ []) :
    applyDefaultTransformation rnd (extractSemanticComponents w) v =
      (if 3/5 < calculateOverallSemanticWeight (extractSemanticComponents w)
       then applyMildConsonantShift v else v) :=
  applyDefaultTransformation_eq rnd _ v (overallSemanticWeight_le_one w)

/-- Witness for C6 (amended) at the word `tree`. -/
theorem c6_default_style_thresholds_witness :
    decomposeMorphemes "tree".data ≠ [] ∧
    applyDefaultTransformation (fun _ => 0) (extractSemanticComponents "tree".data)
        "tree".data =
      (if 3/5 < calculateOverallSemanticWeight (extractSemanticComponents "tree".data)
       then applyMildConsonantShift "tree".data else "tree".data) :=
  ⟨by decide, c6_default_style_thresholds (fun _ => 0) "tree".data "tree".data (by decide)⟩

/-- `word.indexOf(word)` is 0. -/
theorem indexOfSub_self (w : Word) : indexOfSub w w = some 0 := by
  unfold indexOfSub
  unfold indexOfSubAux
  rw [if_pos (List.prefix_refl w)]

/-- When the whole word is the unique (root) morpheme, every position lies
in the root span. -/
theorem isInRootMorpheme_whole (w : Word) (i : Nat) (hi : i < w.length) :
    isInRootMorpheme i w [Morpheme.mk .root w] = true := by
  unfold isInRootMorpheme
  simp only [List.any_cons, List.any_nil, Bool.or_false, Bool.and_eq_true,
    decide_eq_true_eq]
  refine ⟨trivial, ?_⟩
  rw [indexOfSub_self]
  simp only [decide_eq_true_eq]
  constructor
  · positivity
  · push_cast
    omega

/-- C5 (amended): with no detected affixes the whole word is the root span,
and `applyConsonantShift` substitutes *every* letter of the symmetric table
`b↔p, d↔t, g↔k, v↔f, z↔s` together with `j→y, w→v` (so `p,t,k,f,s` are
shiftable too, not only `b,d,g,v,z,j,w`), leaving letters outside the table
unchanged. -/
theorem c5_consonant_shift_symmetric_table (w : Word)
    (hroot : decomposeMorphemes w = [Morpheme.mk .root w]) :
    applyConsonantShift w (decomposeMorphemes w) = w.map shiftChar ∧
    (∀ c c', (c, c') ∈ shiftRules → shiftChar c = c') ∧
    (∀ c, c ∉ shiftRules.map Prod.fst → shiftChar c = c) := by
  refine ⟨?_, ?_, ?_⟩
  · rw [hroot]
    unfold applyConsonantShift
    have hcong : ∀ p ∈ w.enum,
        (match List.lookup p.2 shiftRules with
         | some c' => if isInRootMorpheme p.1 w [Morpheme.mk .root w] then c' else p.2
         | none => p.2) = shiftChar p.2 := by
      intro p hp
      have hi := List.fst_lt_of_mem_enum hp
      cases h : List.lookup p.2 shiftRules with
      | some c' =>
          rw [isInRootMorpheme_whole w p.1 hi]
          simp [shiftChar, h]
      | none => simp [shiftChar, h]
    rw [List.map_congr_left hcong]
    rw [show (fun p : Nat × Char => shiftChar p.2) = shiftChar ∘ Prod.snd from rfl,
      ← List.map_map, List.enum_map_snd]
  · intro c c' h
    fin_cases h <;> rfl
  · intro c hc
    unfold shiftChar
    rw [List.lookup_eq_none_iff.mpr ?_]
    · rfl
    · intro p hp
      have : c ≠ p.1 := fun hne => hc (hne ▸ List.mem_map_of_mem Prod.fst hp)
      simpa using this

/-- Witness for C5 (amended) at the word `computer` (whose image under the
table is `combuder`). -/
theorem c5_consonant_shift_symmetric_table_witness :
    decomposeMorphemes "computer".data = [Morpheme.mk .root "computer".data] ∧
    (applyConsonantShift "computer".data (decomposeMorphemes "computer".data)
        = "computer".data.map shiftChar ∧
     (∀ c c', (c, c') ∈ shiftRules → shiftChar c = c') ∧
     (∀ c, c ∉ shiftRules.map Prod.fst → shiftChar c = c)) :=
  ⟨by decide, c5_consonant_shift_symmetric_table "computer".data (by decide)⟩

/-- C7 counterexample: a word fully consumed by affix stripping has no root
morpheme — `un-` decomposes to a bare prefix — refuting “exactly one root”;
moreover the prefix is matched on the lowercased word, so `UN-do` records
the prefix `un-` even though `un-` is not a literal prefix of `UN-do`. -/
theorem c7_no_root_counterexample :
    (decomposeMorphemes "un-".data).filter (fun m => decide (m.mtype = .root)) = [] ∧
    decomposeMorphemes "un-".data = [Morpheme.mk .pre "un-".data] ∧
    (decomposeMorphemes "UN-do".data).map Morpheme.value = ["un-".data, "do".data] ∧
    ¬ ("un-".data <+: "UN-do".data) := by
  refine ⟨by decide, by decide, by decide, by decide⟩

/-- C7 (amended): every decomposition has at most one prefix (the first
matching entry of the priority list, matched against the lowercased word),
at most one suffix (the first entry matching the end of the remainder), and
at most one root — exactly one, equal to the residual after stripping, when
that residual is non-empty, and none when stripping consumed the word. -/
theorem c7_single_affix_decomposition (w : Word) :
    ((decomposeMorphemes w).filter (fun m => decide (m.mtype = .pre))).length ≤ 1 ∧
    ((decomposeMorphemes w).filter (fun m => decide (m.mtype = .suf))).length ≤ 1 ∧
    ((decomposeMorphemes w).filter (fun m => decide (m.mtype = .root))).map Morpheme.value
      = (if residual w = [] then [] else [residual w]) ∧
    (∀ m ∈ decomposeMorphemes w, m.mtype = .pre →
      firstPrefixMatch (toLower w) = some m.value) ∧
    (∀ m ∈ decomposeMorphemes w, m.mtype = .suf →
      firstSuffixMatch (afterPrefixStrip (toLower w)) = some m.value) := by
  unfold decomposeMorphemes residual
  rcases hp : firstPrefixMatch (toLower w) with _ | p <;>
    rcases hs : firstSuffixMatch (afterPrefixStrip (toLower w)) with _ | s <;>
    simp only [hp, hs] <;> split_ifs <;> simp_all

/-- Witness for C7 (amended) at the word `misleading`
(prefix `mis-` fails the hyphen, suffix `-ing` fails the hyphen: the whole
word is the root). -/
theorem c7_single_affix_decomposition_witness :
    ((decomposeMorphemes "misleading".data).filter
        (fun m => decide (m.mtype = .pre))).length ≤ 1 ∧
    ((decomposeMorphemes "misleading".data).filter
        (fun m => decide (m.mtype = .suf))).length ≤ 1 ∧
    ((decomposeMorphemes "misleading".data).filter
        (fun m => decide (m.mtype = .root))).map Morpheme.value
      = (if residual "misleading".data = [] then [] else [residual "misleading".data]) ∧
    (∀ m ∈ decomposeMorphemes "misleading".data, m.mtype = .pre →
      firstPrefixMatch (toLower "misleading".data) = some m.value) ∧
    (∀ m ∈ decomposeMorphemes "misleading".data, m.mtype = .suf →
      firstSuffixMatch (afterPrefixStrip (toLower "misleading".data)) = some m.value) :=
  c7_single_affix_decomposition "misleading".data

/-- The run counter of `estimateSyllables` counts exactly the positions at
which a maximal run starts, relative to a virtual previous character with
membership value `prev`. -/
theorem countRunsAux_eq_filter (p : Char → Bool) :
    ∀ (w : List Char) (prev : Bool),
      countRunsAux p w prev =
        ((List.range w.length).filter (fun i =>
          p (w.getD i ' ') && !(if i = 0 then prev else p (w.getD (i - 1) ' ')))).length := by
  intro w
  induction w with
  | nil => intro prev; simp [countRunsAux]
  | cons c t ih =>
      intro prev
      have hmap : (List.filter (fun i =>
            p ((c :: t).getD i ' ') && !(if i = 0 then prev else p ((c :: t).getD (i - 1) ' ')))
            ((List.range t.length).map Nat.succ)).length
          = countRunsAux p t (p c) := by
        rw [List.filter_map, List.length_map, ih (p c)]
        congr 1
        apply List.filter_congr
        intro i _
        cases i with
        | zero => simp [Function.comp]
        | succ j => simp [Function.comp]
      rw [show (c :: t).length = t.length + 1 from rfl, List.range_succ_eq_map,
        List.filter_cons, apply_ite List.length, List.length_cons, hmap]
      have hQ0 : (p ((c :: t).getD 0 ' ')
            && !(if (0 : ℕ) = 0 then prev else p ((c :: t).getD (0 - 1) ' ')))
          = (p c && !prev) := by
        simp
      rw [hQ0]
      simp only [countRunsAux]
      cases hpc : p c <;> cases prev <;> (simp [hpc]; try omega)

/-- The regex run count equals the positional run-start count. -/
theorem countRuns_eq_runStartCount (p : Char → Bool) (w : Word) :
    countRuns p w = runStartCount p w := by
  unfold countRuns runStartCount
  rw [countRunsAux_eq_filter]
  congr 1
  apply List.filter_congr
  intro i _
  cases i <;> simp

/-- C8 (amended): for every non-empty word the syllable count equals the
number of maximal contiguous runs of the characters `aeiouy` — `y` counts
as a vowel here, unlike the claim's `aeiou` — on the lowercased word, with
a minimum of 1 when no such character occurs. -/
theorem c8_syllables_are_vowel_y_runs (w : Word) (_hw : w ≠ []) :
    estimateSyllables w = max (runStartCount isVowelY (toLower w)) 1 := by
  unfold estimateSyllables
  rw [countRuns_eq_runStartCount]
  rcases Nat.eq_zero_or_pos (runStartCount isVowelY (toLower w)) with h | h
  · rw [h]
    rfl
  · rw [if_neg (by omega)]
    omega

/-- Witness for C8 (amended) at the word `beautiful` (runs `eau`, `i`, `u`:
three syllables). -/
theorem c8_syllables_are_vowel_y_runs_witness :
    "beautiful".data ≠ ([] : Word) ∧
    estimateSyllables "beautiful".data
      = max (runStartCount isVowelY (toLower "beautiful".data)) 1 :=
  ⟨by decide, c8_syllables_are_vowel_y_runs "beautiful".data (by decide)⟩

/-! ## Map and trim lemmas (for the duplicate-add claim) -/

/-- `dropWhile` is idempotent. -/
theorem dropWhile_dropWhile {α : Type} (p : α → Bool) (l : List α) :
    (l.dropWhile p).dropWhile p = l.dropWhile p := by
  have h := List.head?_dropWhile_not p l
  cases hcase : l.dropWhile p with
  | nil => rfl
  | cons c t =>
      rw [hcase] at h
      simp only [List.head?_cons] at h
      rw [List.dropWhile_cons_of_neg (by simp [h])]

/-- Helper for `trim_trim`: two-sided whitespace stripping is idempotent. -/
theorem trimAux_idem {α : Type} (p : α → Bool) (w : List α) :
    (((((w.dropWhile p).reverse.dropWhile p).reverse.dropWhile p).reverse.dropWhile p).reverse
      = ((w.dropWhile p).reverse.dropWhile p).reverse) := by
  have key : ∀ u : List α, u.dropWhile p = u →
      ((((u.reverse.dropWhile p).reverse.dropWhile p).reverse.dropWhile p).reverse
        = (u.reverse.dropWhile p).reverse) := by
    intro u hu
    have h1 : ((u.reverse.dropWhile p).reverse).dropWhile p
        = (u.reverse.dropWhile p).reverse := by
      cases hcase : (u.reverse.dropWhile p).reverse with
      | nil => rfl
      | cons c t =>
          have hpre : (u.reverse.dropWhile p).reverse <+: u := by
            have h2 := List.reverse_prefix.mpr (List.dropWhile_suffix (l := u.reverse) p)
            rwa [List.reverse_reverse] at h2
          rw [hcase] at hpre
          rcases hpre with ⟨r, hr⟩
          have hhead : p c = false := by
            have h := List.head?_dropWhile_not p u
            rw [hu, ← hr] at h
            simpa using h
          rw [List.dropWhile_cons_of_neg (by simp [hhead])]
    have h2 : ((u.reverse.dropWhile p).reverse).reverse.dropWhile p
        = u.reverse.dropWhile p := by
      rw [List.reverse_reverse]
      exact dropWhile_dropWhile p u.reverse
    rw [h1, h2]
  exact key (w.dropWhile p) (dropWhile_dropWhile p w)

/-- `trim` is idempotent (JS `s.trim().trim() === s.trim()`). -/
theorem trim_trim (w : Word) : trim (trim w) = trim w :=
  trimAux_idem (fun c => decide (c ∈ wsChars)) w

/-- `Map.set` on an absent key appends: the size grows by one. -/
theorem length_mapSet_of_not_has {α β : Type} [DecidableEq α]
    (m : List (α × β)) (k : α) (v : β) (h : mapHas m k = false) :
    (mapSet m k v).length = m.length + 1 := by
  induction m with
  | nil => rfl
  | cons q rest ih =>
      obtain ⟨k', v'⟩ := q
      simp only [mapHas, List.any_cons, Bool.or_eq_false_iff, decide_eq_false_iff_not] at h
      unfold mapSet
      rw [if_neg h.1]
      simp only [List.length_cons]
      rw [ih]
      unfold mapHas
      simp [h.2]

/-- `Map.get` after `Map.set` of the same key. -/
theorem assocGet?_mapSet_self {α β : Type} [DecidableEq α]
    (m : List (α × β)) (k : α) (v : β) : assocGet? (mapSet m k v) k = some v := by
  induction m with
  | nil => simp [mapSet, assocGet?]
  | cons q rest ih =>
      obtain ⟨k', v'⟩ := q
      by_cases hk : k' = k
      · subst hk
        simp [mapSet, assocGet?]
      · unfold mapSet
        rw [if_neg hk]
        unfold assocGet? at ih ⊢
        rw [List.find?_cons_of_neg _ (by simp [hk])]
        exact ih

/-- `Map.has` after `Map.set` of the same key. -/
theorem mapHas_mapSet_self {α β : Type} [DecidableEq α]
    (m : List (α × β)) (k : α) (v : β) : mapHas (mapSet m k v) k = true := by
  induction m with
  | nil => simp [mapSet, mapHas]
  | cons q rest ih =>
      obtain ⟨k', v'⟩ := q
      by_cases hk : k' = k
      · subst hk
        simp [mapSet, mapHas]
      · unfold mapSet
        rw [if_neg hk]
        unfold mapHas at ih ⊢
        simp only [List.any_cons, Bool.or_eq_true]
        right
        exact ih

/-- C1: adding the same source word twice — both occurrences in one batch
word list — increases the vocabulary size by exactly 1, reports exactly one
word added and one skipped, and inserts the entry under the trimmed word;
a subsequent add of the same word against the resulting vocabulary is a
no-op reported as skipped that leaves the language (hence the existing
entry) unchanged. -/
theorem c1_duplicate_add_idempotent (cfg : GenConfig) (lang : Language) (w : Word)
    (d : Definitions) (hw : trim w ≠ []) (hok : cfg.defOracle (trim w) = some d)
    (hnew : mapHas lang.vocabulary (trim w) = false) :
    (addWordsToLanguage cfg lang [w, w]).lang.vocabulary.length
        = lang.vocabulary.length + 1 ∧
    (addWordsToLanguage cfg lang [w, w]).addedCount = 1 ∧
    (addWordsToLanguage cfg lang [w, w]).skippedCount = 1 ∧
    mapHas (addWordsToLanguage cfg lang [w, w]).lang.vocabulary (trim w) = true ∧
    addWordsToLanguage cfg ((addWordsToLanguage cfg lang [w, w]).lang) [w]
      = { lang := (addWordsToLanguage cfg lang [w, w]).lang,
          addedCount := 0, skippedCount := 1 } := by
  have hcond : (!(trim w).isEmpty && !mapHas lang.vocabulary (trim w)) = true := by
    rw [hnew]
    simp [hw]
  have hstep1 : batchStep cfg ⟨lang, [], 0⟩ (trim w)
      = ⟨processWord cfg lang (trim w), [trim w], 1⟩ := by
    unfold batchStep
    simp only [trim_trim]
    rw [if_pos ⟨hw, by simp⟩]
  have hstep2 : batchStep cfg ⟨processWord cfg lang (trim w), [trim w], 1⟩ (trim w)
      = ⟨processWord cfg lang (trim w), [trim w], 1⟩ := by
    unfold batchStep
    simp only [trim_trim]
    rw [if_neg (fun h => h.2 (by simp))]
  have hfilter : List.filter
      (fun w' => !(trim w').isEmpty && !mapHas lang.vocabulary (trim w')) [w, w]
      = [w, w] := by
    simp only [List.filter_cons, hcond, if_pos, List.filter_nil]
  have hrun : addWordsToLanguage cfg lang [w, w]
      = { lang := processWord cfg lang (trim w), addedCount := 1, skippedCount := 1 } := by
    simp only [addWordsToLanguage, hfilter, List.map_cons, List.map_nil,
      List.isEmpty_cons, Bool.false_eq_true, if_false,
      processWordsBatchRun, List.foldl_cons, List.foldl_nil, hstep1, hstep2]
    rfl
  have hvoc : (addWordsToLanguage cfg lang [w, w]).lang.vocabulary
      = mapSet lang.vocabulary (trim w)
          { english := trim w,
            sigment := (mapWordToSigment cfg.rnd cfg.style cfg.ascii (trim w)
              (analyzeWordPure (trim w))).sigment,
            pronunciation := (mapWordToSigment cfg.rnd cfg.style cfg.ascii (trim w)
              (analyzeWordPure (trim w))).pronunciation,
            definitions := d } := by
    rw [hrun]
    unfold processWord
    rw [hok]
  refine ⟨?_, by rw [hrun], by rw [hrun], ?_, ?_⟩
  · rw [hvoc]
    exact length_mapSet_of_not_has _ _ _ hnew
  · rw [hvoc]
    exact mapHas_mapSet_self _ _ _
  · have hhasP : mapHas (processWord cfg lang (trim w)).vocabulary (trim w) = true := by
      unfold processWord
      rw [hok]
      exact mapHas_mapSet_self _ _ _
    rw [hrun]
    have hfilter2 : List.filter
        (fun w' => !(trim w').isEmpty
          && !mapHas (processWord cfg lang (trim w)).vocabulary (trim w')) [w]
        = [] := by
      simp [hhasP]
    simp only [addWordsToLanguage]
    rw [hfilter2]
    simp only [List.map_nil, List.isEmpty_nil, if_true]
    rfl

/-- Witness for C1 at the word `tree` over the empty language. -/
theorem c1_duplicate_add_idempotent_witness :
    trim "tree".data ≠ [] ∧ okCfg.defOracle (trim "tree".data) = some [] ∧
    mapHas emptyLang.vocabulary (trim "tree".data) = false ∧
    (addWordsToLanguage okCfg emptyLang ["tree".data, "tree".data]).lang.vocabulary.length
        = emptyLang.vocabulary.length + 1 ∧
    (addWordsToLanguage okCfg emptyLang ["tree".data, "tree".data]).addedCount = 1 :=
  ⟨by decide, rfl, by decide,
    (c1_duplicate_add_idempotent okCfg emptyLang "tree".data [] (by decide) rfl
      (by decide)).1,
    (c1_duplicate_add_idempotent okCfg emptyLang "tree".data [] (by decide) rfl
      (by decide)).2.1⟩

/-! ## Lowercase preservation (for C10) -/

/-- Lowercasing never produces an uppercase letter. -/
theorem isUpperChar_toLowerChar (c : Char) : isUpperChar (toLowerChar c) = false := by
  unfold toLowerChar
  split <;> first
    | decide
    | simp_all [isUpperChar, upperChars]

/-- A character with no uppercase form is fixed by lowercasing. -/
theorem toLowerChar_fix (c : Char) (h : isUpperChar c = false) : toLowerChar c = c := by
  unfold toLowerChar
  split <;> simp_all [isUpperChar, upperChars]

/-- Lowercasing a character is idempotent. -/
theorem toLowerChar_toLowerChar (c : Char) : toLowerChar (toLowerChar c) = toLowerChar c :=
  toLowerChar_fix _ (isUpperChar_toLowerChar c)

/-- Lowercasing a word is idempotent. -/
theorem toLower_toLower (w : Word) : toLower (toLower w) = toLower w := by
  unfold toLower
  rw [List.map_map]
  apply List.map_congr_left
  intro c _
  exact toLowerChar_toLowerChar c

/-- A lowercased word has no uppercase letters. -/
theorem noUpper_toLower (w : Word) : NoUpper (toLower w) := by
  intro c hc
  rcases List.mem_map.mp hc with ⟨c', _, rfl⟩
  exact isUpperChar_toLowerChar c'

/-- `decomposeMorphemes` only sees the lowercased word. -/
theorem decomposeMorphemes_toLower (w : Word) :
    decomposeMorphemes (toLower w) = decomposeMorphemes w := by
  unfold decomposeMorphemes
  rw [toLower_toLower]

/-- `extractSemanticComponents` only sees the lowercased word. -/
theorem extractSemanticComponents_toLower (w : Word) :
    extractSemanticComponents (toLower w) = extractSemanticComponents w := by
  unfold extractSemanticComponents
  rw [decomposeMorphemes_toLower]

/-- The analysis consumed by the transformation engine only sees the
lowercased word. -/
theorem analyzeWordPure_toLower (w : Word) :
    analyzeWordPure (toLower w) = analyzeWordPure w := by
  unfold analyzeWordPure
  rw [decomposeMorphemes_toLower, extractSemanticComponents_toLower]

/-- A successful `lookup` pairs the key with a table member. -/
theorem lookup_mem {α β : Type} [BEq α] [LawfulBEq α] {l : List (α × β)} {k : α} {v : β}
    (h : l.lookup k = some v) : (k, v) ∈ l := by
  rcases List.lookup_eq_some_iff.mp h with ⟨l1, l2, rfl, -⟩
  exact List.mem_append_right l1 (List.mem_cons_self _ _)

/-- All substitution targets of the consonant-shift table are lowercase. -/
theorem shiftRules_value_noUpper (c c' : Char) (h : (c, c') ∈ shiftRules) :
    isUpperChar c' = false := by
  fin_cases h <;> decide

/-- `applyConsonantShift` preserves the absence of uppercase letters. -/
theorem noUpper_applyConsonantShift (w : Word) (ms : List Morpheme) (h : NoUpper w) :
    NoUpper (applyConsonantShift w ms) := by
  intro c hc
  unfold applyConsonantShift at hc
  rcases List.mem_map.mp hc with ⟨p, hp, rfl⟩
  have hmem := List.snd_mem_of_mem_enum hp
  cases hlk : List.lookup p.2 shiftRules with
  | none => simpa [hlk] using h p.2 hmem
  | some c' =>
      simp only [hlk]
      by_cases hir : isInRootMorpheme p.1 w ms
      · rw [if_pos hir]
        exact shiftRules_value_noUpper p.2 c' (lookup_mem hlk)
      · rw [if_neg hir]
        exact h p.2 hmem

/-- Random picks from the front vowel class are lowercase. -/
theorem pickRandom_front_noUpper (n : Nat) :
    isUpperChar (pickRandom harmonyFront n) = false := by
  unfold pickRandom harmonyFront
  rcases Nat.mod_two_eq_zero_or_one n with h | h <;> simp only [List.length_cons,
    List.length_nil] <;> rw [h] <;> decide

/-- Random picks from the back vowel class are lowercase. -/
theorem pickRandom_back_noUpper (n : Nat) :
    isUpperChar (pickRandom harmonyBack n) = false := by
  unfold pickRandom harmonyBack
  have h3 : n % 3 = 0 ∨ n % 3 = 1 ∨ n % 3 = 2 := by omega
  rcases h3 with h | h | h <;> simp only [List.length_cons, List.length_nil] <;>
    rw [h] <;> decide

/-- `applyVowelHarmony` preserves the absence of uppercase letters. -/
theorem noUpper_applyVowelHarmony (rnd : Nat → Nat) (w : Word) (h : NoUpper w) :
    NoUpper (applyVowelHarmony rnd w) := by
  intro c hc
  unfold applyVowelHarmony at hc
  rcases List.mem_map.mp hc with ⟨p, hp, rfl⟩
  have hmem := List.snd_mem_of_mem_enum hp
  split_ifs with h1 h2 h3
  · exact pickRandom_front_noUpper _
  · exact pickRandom_back_noUpper _
  · exact h p.2 hmem
  · exact h p.2 hmem

/-- Characters of `addRootEmphasis m` come from `m` (or are the blank
default of an out-of-range read, which cannot occur for the lengths used). -/
theorem mem_addRootEmphasis {c : Char} {m : Word} (h : c ∈ addRootEmphasis m) :
    c ∈ m ∨ c = ' ' := by
  unfold addRootEmphasis at h
  split_ifs at h with hlen
  · rcases List.mem_append.mp h with h1 | h1
    · rcases List.mem_append.mp h1 with h2 | h2
      · exact Or.inl (List.mem_of_mem_take h2)
      · simp only [List.mem_singleton] at h2
        subst h2
        by_cases hmid : m.length / 2 < m.length
        · rw [List.getD_eq_getElem m ' ' hmid]
          exact Or.inl (List.getElem_mem _)
        · rw [List.getD_eq_default m ' ' (by omega)]
          exact Or.inr rfl
    · exact Or.inl (List.mem_of_mem_drop h1)
  · exact Or.inl h

/-- Characters of `emphasizeMorpheme` come from its input (or blank). -/
theorem mem_emphasizeMorpheme {c : Char} {m : Word} {info : Morpheme}
    (h : c ∈ emphasizeMorpheme m info) : c ∈ m ∨ c = ' ' := by
  unfold emphasizeMorpheme at h
  split_ifs at h
  · exact mem_addRootEmphasis h
  · exact Or.inl h

/-- Characters of one morpheme-emphasis step come from the current result
(or blank). -/
theorem mem_morphemeEmphasisStep {c : Char} {st : Word × Nat} {m : Morpheme}
    (h : c ∈ (morphemeEmphasisStep st m).1) : c ∈ st.1 ∨ c = ' ' := by
  unfold morphemeEmphasisStep at h
  split_ifs at h
  · cases hidx : indexOfSubFrom st.1 m.value st.2 with
    | none => rw [hidx] at h; exact Or.inl h
    | some start =>
        rw [hidx] at h
        dsimp only [] at h
        rcases List.mem_append.mp h with h1 | h1
        · rcases List.mem_append.mp h1 with h2 | h2
          · exact Or.inl (List.mem_of_mem_take h2)
          · rcases mem_emphasizeMorpheme h2 with h3 | h3
            · exact Or.inl (List.mem_of_mem_drop (List.mem_of_mem_take h3))
            · exact Or.inr h3
        · exact Or.inl (List.mem_of_mem_drop h1)
  · exact Or.inl h

/-- `applyMorphemeEmphasis` preserves the absence of uppercase letters. -/
theorem noUpper_applyMorphemeEmphasis (w : Word) (ms : List Morpheme) (h : NoUpper w) :
    NoUpper (applyMorphemeEmphasis w ms) := by
  unfold applyMorphemeEmphasis
  suffices hgen : ∀ (st : Word × Nat), NoUpper st.1 → NoUpper (ms.foldl morphemeEmphasisStep st).1 by
    exact hgen (w, 0) h
  induction ms with
  | nil => intro st hst; exact hst
  | cons m rest ih =>
      intro st hst
      rw [List.foldl_cons]
      apply ih
      intro c hc
      rcases mem_morphemeEmphasisStep hc with h1 | h1
      · exact hst c h1
      · subst h1; decide

/-- Characters of a global replacement come from the replacement string or
the scanned string. -/
theorem mem_replaceAllAux {c : Char} {pat repl : Word} :
    ∀ {fuel : Nat} {s : Word}, c ∈ replaceAllAux pat repl fuel s → c ∈ repl ∨ c ∈ s := by
  intro fuel
  induction fuel with
  | zero => intro s h; exact Or.inr h
  | succ n ih =>
      intro s h
      cases s with
      | nil => simp [replaceAllAux] at h
      | cons a t =>
          unfold replaceAllAux at h
          split_ifs at h with hcond
          · rcases List.mem_append.mp h with h1 | h1
            · exact Or.inl h1
            · rcases ih h1 with h2 | h2
              · exact Or.inl h2
              · exact Or.inr (List.mem_of_mem_drop h2)
          · rcases List.mem_cons.mp h with h1 | h1
            · exact Or.inr (h1 ▸ List.mem_cons_self a t)
            · rcases ih h1 with h2 | h2
              · exact Or.inl h2
              · exact Or.inr (List.mem_cons_of_mem a h2)

/-- A cluster-replacement fold preserves the absence of uppercase letters
when every replacement string has none. -/
theorem noUpper_clusterFold (l : List (Word × Word)) (hl : ∀ q ∈ l, NoUpper q.2) :
    ∀ (w : Word), NoUpper w → NoUpper (l.foldl (fun result q =>
      if (indexOfSub result q.1).isSome then replaceAll result q.1 q.2 else result) w) := by
  induction l with
  | nil => intro w h; exact h
  | cons q rest ih =>
      intro w h
      rw [List.foldl_cons]
      apply ih (fun q' hq' => hl q' (List.mem_cons_of_mem q hq'))
      split_ifs
      · intro c hc
        rcases mem_replaceAllAux hc with h1 | h1
        · exact hl q (List.mem_cons_self q rest) c h1
        · exact h c h1
      · exact h

/-- `handleConsonantClusters` preserves the absence of uppercase letters. -/
theorem noUpper_handleConsonantClusters (w : Word) (h : NoUpper w) :
    NoUpper (handleConsonantClusters w) :=
  noUpper_clusterFold consonantClusters
    (by
      intro q hq
      fin_cases hq <;>
        (intro c hc
         dsimp only at hc
         simp only [List.mem_cons, List.not_mem_nil, or_false] at hc
         rcases hc with rfl | rfl <;> decide)) w h

/-- The vowel-pair replacement of `applySyllableRules` re-emits its match
verbatim: the function is the identity. -/
theorem applySyllableRules_eq (w : Word) : applySyllableRules w = w := by
  have hgen : ∀ (n : Nat) (v : Word), v.length ≤ n → applySyllableRules v = v := by
    intro n
    induction n with
    | zero =>
        intro v hv
        rw [List.length_eq_zero.mp (Nat.le_zero.mp hv)]
        simp [applySyllableRules]
    | succ k ih =>
        intro v hv
        match v with
        | [] => simp [applySyllableRules]
        | [c] => simp [applySyllableRules]
        | c1 :: c2 :: t =>
            unfold applySyllableRules
            split_ifs
            · rw [ih t (by simp at hv; omega)]
            · rw [ih (c2 :: t) (by simp at hv ⊢; omega)]
  exact hgen w.length w le_rfl

/-- Characters of the flattened run list come from the runs' characters. -/
theorem mem_flattenRuns {c : Char} {rs : List (Char × Nat)} (h : c ∈ flattenRuns rs) :
    ∃ q ∈ rs, c = q.1 := by
  unfold flattenRuns at h
  rcases List.mem_flatMap.mp h with ⟨q, hq, hrep⟩
  exact ⟨q, hq, (List.eq_of_mem_replicate hrep)⟩

/-- The run characters of a word are characters of the word. -/
theorem mem_runsOf {q : Char × Nat} : ∀ {w : Word}, q ∈ runsOf w → q.1 ∈ w := by
  intro w
  induction w with
  | nil => intro h; simp [runsOf] at h
  | cons c t ih =>
      intro h
      cases hrt : runsOf t with
      | nil =>
          have heq : runsOf (c :: t) = [(c, 1)] := by
            unfold runsOf
            rw [hrt]
          rw [heq] at h
          simp only [List.mem_singleton] at h
          subst h
          exact List.mem_cons_self c t
      | cons r rest =>
          obtain ⟨c', n⟩ := r
          have heq : runsOf (c :: t)
              = if c' = c then (c, n + 1) :: rest else (c, 1) :: (c', n) :: rest := by
            unfold runsOf
            rw [hrt]
          rw [heq] at h
          split_ifs at h with hr
          · rcases List.mem_cons.mp h with h1 | h1
            · subst h1; exact List.mem_cons_self c t
            · exact List.mem_cons_of_mem c
                (ih (hrt ▸ List.mem_cons_of_mem (c', n) h1))
          · rcases List.mem_cons.mp h with h1 | h1
            · subst h1; exact List.mem_cons_self c t
            · exact List.mem_cons_of_mem c (ih (hrt ▸ h1))

/-- Characters of a run collapse come from the input. -/
theorem mem_collapseRuns {c : Char} {f : Nat → Nat} {w : Word}
    (h : c ∈ collapseRuns f w) : c ∈ w := by
  unfold collapseRuns at h
  rcases mem_flattenRuns h with ⟨q, hq, rfl⟩
  rcases List.mem_map.mp hq with ⟨r, hr, hqr⟩
  have : q.1 = r.1 := by rw [← hqr]
  rw [this]
  exact mem_runsOf hr

/-- Characters of the leading-run collapse come from the input. -/
theorem mem_firstRunTo1 {c : Char} {w : Word} (h : c ∈ firstRunTo1 w) : c ∈ w := by
  unfold firstRunTo1 at h
  cases hrw : runsOf w with
  | nil => rw [hrw] at h; simp at h
  | cons r rest =>
      rw [hrw] at h
      rcases mem_flattenRuns h with ⟨q, hq, rfl⟩
      rcases List.mem_cons.mp hq with h1 | h1
      · have : q.1 = r.1 := by rw [h1]
        rw [this]
        exact mem_runsOf (hrw ▸ List.mem_cons_self r rest)
      · exact mem_runsOf (hrw ▸ List.mem_cons_of_mem r h1)

/-- Characters of the trailing-run collapse come from the input. -/
theorem mem_lastRunTo1 {c : Char} {w : Word} (h : c ∈ lastRunTo1 w) : c ∈ w := by
  unfold lastRunTo1 at h
  cases hrw : (runsOf w).reverse with
  | nil => rw [hrw] at h; simp at h
  | cons r rest =>
      rw [hrw] at h
      rcases mem_flattenRuns h with ⟨q, hq, rfl⟩
      rw [List.mem_reverse] at hq
      rcases List.mem_cons.mp hq with h1 | h1
      · have hmem : r ∈ runsOf w := by
          rw [← List.mem_reverse, hrw]
          exact List.mem_cons_self r rest
        have : q.1 = r.1 := by rw [h1]
        rw [this]
        exact mem_runsOf hmem
      · have hmem : q ∈ runsOf w := by
          rw [← List.mem_reverse, hrw]
          exact List.mem_cons_of_mem r h1
        exact mem_runsOf hmem

/-- `applyPhoneticConsistency` only drops characters. -/
theorem mem_applyPhoneticConsistency {c : Char} {w : Word}
    (h : c ∈ applyPhoneticConsistency w) : c ∈ w := by
  unfold applyPhoneticConsistency at h
  exact mem_collapseRuns (mem_firstRunTo1 (mem_lastRunTo1 h))

/-- `maintainPhoneticIntegrity` only drops characters. -/
theorem mem_maintainPhoneticIntegrity {c : Char} {w : Word}
    (h : c ∈ maintainPhoneticIntegrity w) : c ∈ w :=
  mem_collapseRuns h

/-- `applyPhoneticLogic` preserves the absence of uppercase letters. -/
theorem noUpper_applyPhoneticLogic (w : Word) (h : NoUpper w) :
    NoUpper (applyPhoneticLogic w) := by
  unfold applyPhoneticLogic
  intro c hc
  have h1 := mem_maintainPhoneticIntegrity hc
  rw [applySyllableRules_eq] at h1
  exact noUpper_handleConsonantClusters w h c h1

/-- `applyMildConsonantShift` preserves the absence of uppercase letters. -/
theorem noUpper_applyMildConsonantShift (w : Word) (h : NoUpper w) :
    NoUpper (applyMildConsonantShift w) := by
  intro c hc
  unfold applyMildConsonantShift at hc
  rcases List.mem_flatMap.mp hc with ⟨a, ha, hmem⟩
  cases hlk : List.lookup a mildShifts with
  | none =>
      rw [hlk] at hmem
      simp only [List.mem_singleton] at hmem
      subst hmem
      exact h _ ha
  | some r =>
      rw [hlk] at hmem
      have hm := lookup_mem hlk
      simp only [mildShifts, List.mem_cons, List.not_mem_nil, or_false] at hm
      have hv : ∀ x ∈ r, isUpperChar x = false := by
        rcases hm with hcase | hcase | hcase <;>
          (rw [show r = _ from congrArg Prod.snd hcase]; decide)
      exact hv c hmem

/-- `applyVowelVariation` preserves the absence of uppercase letters. -/
theorem noUpper_applyVowelVariation (rnd : Nat → Nat) (w : Word) (h : NoUpper w) :
    NoUpper (applyVowelVariation rnd w) := by
  intro c hc
  unfold applyVowelVariation at hc
  rcases List.mem_flatMap.mp hc with ⟨p, hp, hmem⟩
  have hm := List.snd_mem_of_mem_enum hp
  have hcp : c = p.2 := by
    split_ifs at hmem <;> simp at hmem <;> tauto
  rw [hcp]
  exact h p.2 hm

/-- `applyDefaultTransformation` preserves the absence of uppercase
letters. -/
theorem noUpper_applyDefaultTransformation (rnd : Nat → Nat)
    (comps : List SemanticComponent) (w : Word) (h : NoUpper w) :
    NoUpper (applyDefaultTransformation rnd comps w) := by
  simp only [applyDefaultTransformation]
  split_ifs <;>
    first
      | exact h
      | exact noUpper_applyMildConsonantShift w h
      | exact noUpper_applyVowelVariation rnd _ (noUpper_applyMildConsonantShift w h)
      | exact noUpper_applyVowelVariation rnd _ h

/-- Every style transformation preserves the absence of uppercase letters. -/
theorem noUpper_applySystematicTransformations (rnd : Nat → Nat) (style : Style)
    (etym : Etymology) (w : Word) (h : NoUpper w) :
    NoUpper (applySystematicTransformations rnd style etym w) := by
  cases style with
  | consonantShift => exact noUpper_applyConsonantShift w etym.morphemes h
  | vowelHarmony => exact noUpper_applyVowelHarmony rnd w h
  | morphemeEmphasis => exact noUpper_applyMorphemeEmphasis w etym.morphemes h
  | phoneticLogic => exact noUpper_applyPhoneticLogic w h
  | default => exact noUpper_applyDefaultTransformation rnd etym.semanticComponents w h

/-- C10: the transformation engine lowercases its input first, and every
analysis field it consults is computed from the lowercased word, so the
constructed word of any input equals that of its lowercased form; and no
style ever emits an uppercase letter, so the constructed word contains
none even when the source word does. -/
theorem c10_engine_lowercase_invariance (rnd : Nat → Nat) (style : Style) (w : Word) :
    transformWord rnd style (analyzeWordPure w) w
      = transformWord rnd style (analyzeWordPure (toLower w)) (toLower w) ∧
    ∀ c ∈ transformWord rnd style (analyzeWordPure w) w, isUpperChar c = false := by
  constructor
  · unfold transformWord
    rw [toLower_toLower, analyzeWordPure_toLower]
  · intro c hc
    unfold transformWord at hc
    have h1 := mem_applyPhoneticConsistency hc
    rw [applyMorphemeBasedRules_eq] at h1
    exact noUpper_applySystematicTransformations rnd style (analyzeWordPure w)
      (toLower w) (noUpper_toLower w) c h1

/-- Witness for C10 at the mixed-case word `TRee` under the
consonant-shift style. -/
theorem c10_engine_lowercase_invariance_witness :
    (transformWord (fun _ => 0) .consonantShift (analyzeWordPure "TRee".data) "TRee".data
      = transformWord (fun _ => 0) .consonantShift
          (analyzeWordPure (toLower "TRee".data)) (toLower "TRee".data)) ∧
    ∀ c ∈ transformWord (fun _ => 0) .consonantShift
        (analyzeWordPure "TRee".data) "TRee".data, isUpperChar c = false :=
  c10_engine_lowercase_invariance (fun _ => 0) .consonantShift "TRee".data

/-! ## Batch orchestrator invariants (for C3) -/

/-- `Map.has` after `Map.set`. -/
theorem mapHas_mapSet {α β : Type} [DecidableEq α] (m : List (α × β)) (k x : α) (v : β) :
    mapHas (mapSet m k v) x = (mapHas m x || decide (x = k)) := by
  induction m with
  | nil =>
      show mapHas [(k, v)] x = _
      unfold mapHas
      simp only [List.any_cons, List.any_nil, Bool.or_false, Bool.false_or]
      cases hx : decide (k = x) <;> cases hx' : decide (x = k) <;> simp_all
  | cons q rest ih =>
      obtain ⟨k', v'⟩ := q
      by_cases hk : k' = k
      · subst hk
        unfold mapSet mapHas
        rw [if_pos rfl]
        simp only [List.any_cons]
        cases hx : decide (k' = x) <;> cases hx' : decide (x = k') <;> simp_all
      · unfold mapSet
        rw [if_neg hk]
        unfold mapHas at ih ⊢
        simp only [List.any_cons, ih]
        cases hx : decide (k' = x) <;> simp

/-- Unfolding one successfully processed word of `expectedLang`. -/
theorem expectedLang_succ (cfg : GenConfig) (lang₀ : Language) (words : List Word)
    (k : Nat) (w : Word) (hget : words.get? k = some w) :
    expectedLang cfg lang₀ words (k + 1)
      = processWord cfg (expectedLang cfg lang₀ words k) (trim w) := by
  have hget' : words[k]? = some w := by
    rw [← List.get?_eq_getElem?]
    exact hget
  unfold expectedLang
  rw [List.take_succ, hget', List.foldl_append]
  rfl

/-- The processed-words list after one more word. -/
theorem processedWords_succ (words : List Word) (k : Nat) (w : Word)
    (hget : words.get? k = some w) :
    ((words.take (k + 1)).map trim).reverse
      = trim w :: ((words.take k).map trim).reverse := by
  have hget' : words[k]? = some w := by
    rw [← List.get?_eq_getElem?]
    exact hget
  rw [List.take_succ, hget']
  simp

/-- A word of the list is, after trimming, not among the trims of the
earlier words, when all trims are distinct. -/
theorem trim_not_mem_earlier (words : List Word) (k : Nat) (w : Word)
    (hget : words.get? k = some w) (Hnodup : (words.map trim).Nodup) :
    trim w ∉ (words.take k).map trim := by
  intro hmem
  have hdisj := List.disjoint_take_drop (l := words.map trim) Hnodup (le_refl k)
  have h1 : trim w ∈ (words.map trim).take k := by
    rw [← List.map_take]
    exact hmem
  have h2 : trim w ∈ (words.map trim).drop k := by
    have hget' : (words.map trim)[k]? = some (trim w) := by
      rw [List.getElem?_map, ← List.get?_eq_getElem?, hget]
      rfl
    have hdrop : ((words.map trim).drop k)[0]? = some (trim w) := by
      rw [List.getElem?_drop]
      simpa using hget'
    rw [← List.get?_eq_getElem?] at hdrop
    exact List.get?_mem hdrop
  exact hdisj h1 h2

/-- Size and key characterization of the accumulated language: after `k`
fully processed fresh, distinct, valid words with a succeeding enrichment
oracle, the vocabulary has grown by exactly `k`, and its keys are the
original keys plus the trims of the processed words. -/
theorem expectedLang_vocab (cfg : GenConfig) (lang₀ : Language) (words : List Word)
    (Hok : ∀ v ∈ words, ∃ d, cfg.defOracle (trim v) = some d)
    (Hfresh : ∀ v ∈ words, mapHas lang₀.vocabulary (trim v) = false)
    (Hnodup : (words.map trim).Nodup) :
    ∀ k, k ≤ words.length →
      (expectedLang cfg lang₀ words k).vocabulary.length
          = lang₀.vocabulary.length + k ∧
      (∀ x, mapHas (expectedLang cfg lang₀ words k).vocabulary x = true →
        mapHas lang₀.vocabulary x = true ∨ x ∈ (words.take k).map trim) := by
  intro k
  induction k with
  | zero => intro _; exact ⟨rfl, fun x hx => Or.inl hx⟩
  | succ n ih =>
      intro hle
      have hn : n < words.length := by omega
      obtain ⟨w, hget⟩ : ∃ w, words.get? n = some w := by
        rw [List.get?_eq_getElem?]
        exact ⟨words[n], List.getElem?_eq_getElem hn⟩
      have hwmem : w ∈ words := List.get?_mem hget
      obtain ⟨ihlen, ihkeys⟩ := ih (by omega)
      obtain ⟨d, hd⟩ := Hok w hwmem
      have hstep := expectedLang_succ cfg lang₀ words n w hget
      have hfreshn : mapHas (expectedLang cfg lang₀ words n).vocabulary (trim w)
          = false := by
        cases hcase : mapHas (expectedLang cfg lang₀ words n).vocabulary (trim w) with
        | false => rfl
        | true =>
            rcases ihkeys (trim w) hcase with h1 | h1
            · rw [Hfresh w hwmem] at h1
              cases h1
            · exact absurd h1 (trim_not_mem_earlier words n w hget Hnodup)
      have hvoc : (expectedLang cfg lang₀ words (n + 1)).vocabulary
          = mapSet (expectedLang cfg lang₀ words n).vocabulary (trim w)
              { english := trim w,
                sigment := (mapWordToSigment cfg.rnd cfg.style cfg.ascii (trim w)
                  (analyzeWordPure (trim w))).sigment,
                pronunciation := (mapWordToSigment cfg.rnd cfg.style cfg.ascii (trim w)
                  (analyzeWordPure (trim w))).pronunciation,
                definitions := d } := by
        rw [hstep]
        unfold processWord
        rw [hd]
      constructor
      · rw [hvoc, length_mapSet_of_not_has _ _ _ hfreshn, ihlen]
        omega
      · intro x hx
        rw [hvoc, mapHas_mapSet] at hx
        rcases Bool.or_eq_true_iff.mp hx with h1 | h1
        · rcases ihkeys x h1 with h2 | h2
          · exact Or.inl h2
          · refine Or.inr ?_
            rw [List.take_succ, List.map_append]
            exact List.mem_append_left _ h2
        · refine Or.inr ?_
          rw [List.take_succ, List.map_append,
            show words[n]? = some w by rw [← List.get?_eq_getElem?]; exact hget]
          refine List.mem_append_right _ ?_
          simp [decide_eq_true_eq.mp h1]

/-- Inductive invariant of the orchestrator: in every reachable state the
accumulated language is exactly the fold of the fully processed words, the
processed-words set holds exactly their trims, the index never exceeds the
word count, and a word can only be in flight at a valid index. -/
theorem batch_invariant (cfg : GenConfig) (words : List Word) (lang₀ : Language)
    (Hvalid : ∀ v ∈ words, trim v ≠ [])
    (Hnodup : (words.map trim).Nodup)
    (s : OrchestratorState)
    (hreach : BatchReachable cfg words (initialState lang₀) s) :
    s.lang = expectedLang cfg lang₀ words s.i ∧
    s.processedWords = ((words.take s.i).map trim).reverse ∧
    s.i ≤ words.length ∧
    (s.phase = .inFlight → s.i < words.length) := by
  induction hreach with
  | refl =>
      refine ⟨rfl, rfl, by simp [initialState], ?_⟩
      intro h
      simp [initialState] at h
  | @step t s' l hprev hstep ih =>
      obtain ⟨ihlang, ihproc, ihle, ihflight⟩ := ih
      cases hstep with
      | startWord w hhalt hphase hstop hpause hget hvalid hnotmem =>
          refine ⟨ihlang, ihproc, ihle, ?_⟩
          intro _
          rcases List.get?_eq_some.mp hget with ⟨hlt, -⟩
          exact hlt
      | finishWord w hphase hget =>
          have hlt := ihflight hphase
          refine ⟨?_, ?_, by simpa using hlt, ?_⟩
          · show processWord cfg t.lang (trim w) = expectedLang cfg lang₀ words (t.i + 1)
            rw [expectedLang_succ cfg lang₀ words t.i w hget, ihlang]
          · show trim w :: t.processedWords
              = ((words.take (t.i + 1)).map trim).reverse
            rw [processedWords_succ words t.i w hget, ihproc]
          · intro h
            simp at h
      | skipWord w hhalt hphase hstop hpause hget hdup =>
          exfalso
          have hwmem : w ∈ words := List.get?_mem hget
          rcases hdup with h1 | h1
          · exact Hvalid w hwmem h1
          · rw [ihproc, List.mem_reverse] at h1
            exact trim_not_mem_earlier words t.i w hget Hnodup h1
      | pollDetect hpause => exact ⟨ihlang, ihproc, ihle, ihflight⟩
      | pollRelease hpause => exact ⟨ihlang, ihproc, ihle, ihflight⟩
      | sigint hstop => exact ⟨ihlang, ihproc, ihle, ihflight⟩
      | stopExit hhalt hphase hstop hlt => exact ⟨ihlang, ihproc, ihle, ihflight⟩
      | completeExit hhalt hphase hstop hge => exact ⟨ihlang, ihproc, ihle, ihflight⟩

/-- The idle state after fully processing the first `k` words is reachable. -/
theorem batch_can_reach (cfg : GenConfig) (words : List Word) (lang₀ : Language)
    (Hvalid : ∀ v ∈ words, trim v ≠ [])
    (Hnodup : (words.map trim).Nodup) :
    ∀ k, k ≤ words.length →
      BatchReachable cfg words (initialState lang₀)
        { i := k, phase := .idle, lang := expectedLang cfg lang₀ words k,
          processedWords := ((words.take k).map trim).reverse,
          isPaused := false, shouldStop := false, halted := false } := by
  intro k
  induction k with
  | zero => intro _; exact .refl
  | succ n ih =>
      intro hle
      have hn : n < words.length := by omega
      obtain ⟨w, hget⟩ : ∃ w, words.get? n = some w := by
        rw [List.get?_eq_getElem?]
        exact ⟨words[n], List.getElem?_eq_getElem hn⟩
      have hwmem : w ∈ words := List.get?_mem hget
      have hreach := ih (by omega)
      have hstart : BatchStep cfg words
          { i := n, phase := .idle, lang := expectedLang cfg lang₀ words n,
            processedWords := ((words.take n).map trim).reverse,
            isPaused := false, shouldStop := false, halted := false }
          .startWord
          { i := n, phase := .inFlight, lang := expectedLang cfg lang₀ words n,
            processedWords := ((words.take n).map trim).reverse,
            isPaused := false, shouldStop := false, halted := false } :=
        BatchStep.startWord _ w rfl rfl rfl rfl hget (Hvalid w hwmem)
          (by
            rw [List.mem_reverse]
            exact trim_not_mem_earlier words n w hget Hnodup)
      have hfinish : BatchStep cfg words
          { i := n, phase := .inFlight, lang := expectedLang cfg lang₀ words n,
            processedWords := ((words.take n).map trim).reverse,
            isPaused := false, shouldStop := false, halted := false }
          .finishWord
          { i := n + 1, phase := .idle,
            lang := processWord cfg (expectedLang cfg lang₀ words n) (trim w),
            processedWords := trim w :: ((words.take n).map trim).reverse,
            isPaused := false, shouldStop := false, halted := false } :=
        BatchStep.finishWord _ w rfl hget
      rw [expectedLang_succ cfg lang₀ words n w hget,
        processedWords_succ words n w hget]
      exact .step (.step hreach hstart) hfinish

/-- C3: in a fresh batch run over distinct, non-blank, successfully
enriched words, when the pause signal is observed by a poll while the 11th
word (index 10) is in flight: exactly 10 words are committed to the
vocabulary at the moment the state transitions to Paused, the transition
itself commits nothing and keeps the in-flight word in flight; no word
(in particular none after the 11th) ever starts while the pause flag is
raised; and the only transition that takes a word out of flight is its own
completion — an in-flight word is never interrupted by pause or stop. -/
theorem c3_pause_after_ten_words (cfg : GenConfig) (words : List Word)
    (lang₀ : Language) (s s' : OrchestratorState)
    (_Hlen : words.length = 100)
    (Hvalid : ∀ v ∈ words, trim v ≠ [])
    (Hnodup : (words.map trim).Nodup)
    (Hok : ∀ v ∈ words, ∃ d, cfg.defOracle (trim v) = some d)
    (Hfresh : ∀ v ∈ words, mapHas lang₀.vocabulary (trim v) = false)
    (hreach : BatchReachable cfg words (initialState lang₀) s)
    (hflight : s.phase = .inFlight) (hidx : s.i = 10)
    (hdetect : BatchStep cfg words s .pollDetect s') :
    s.lang.vocabulary.length = lang₀.vocabulary.length + 10 ∧
    s'.isPaused = true ∧ s'.lang = s.lang ∧ s'.phase = .inFlight ∧
    (∀ t t' : OrchestratorState, BatchStep cfg words t .startWord t' →
      t.isPaused = false) ∧
    (∀ (t t' : OrchestratorState) (l : BatchLabel), BatchStep cfg words t l t' →
      t.phase = .inFlight → t'.phase ≠ .inFlight → l = .finishWord) := by
  obtain ⟨ihlang, -, -, ihflight⟩ :=
    batch_invariant cfg words lang₀ Hvalid Hnodup s hreach
  have hlt : s.i < words.length := ihflight hflight
  refine ⟨?_, ?_, ?_, ?_, ?_, ?_⟩
  · rw [ihlang, hidx]
    exact (expectedLang_vocab cfg lang₀ words Hok Hfresh Hnodup 10
      (by omega)).1
  · cases hdetect with
    | pollDetect hpause => rfl
  · cases hdetect with
    | pollDetect hpause => rfl
  · cases hdetect with
    | pollDetect hpause => exact hflight
  · intro t t' hstep
    cases hstep with
    | startWord w hhalt hphase hstop hpause hget hvalid hnotmem => exact hpause
  · intro t t' l hstep hinflight hleft
    cases hstep with
    | startWord w hhalt hphase hstop hpause hget hvalid hnotmem =>
        rw [hphase] at hinflight
        cases hinflight
    | finishWord w hphase hget => rfl
    | skipWord w hhalt hphase hstop hpause hget hdup =>
        rw [hphase] at hinflight
        cases hinflight
    | pollDetect hpause => exact absurd hinflight hleft
    | pollRelease hpause => exact absurd hinflight hleft
    | sigint hstop => exact absurd hinflight hleft
    | stopExit hhalt hphase hstop hlt2 =>
        rw [hphase] at hinflight
        cases hinflight
    | completeExit hhalt hphase hstop hge =>
        rw [hphase] at hinflight
        cases hinflight

/-- Witness for C3: a concrete run over the one hundred words `w00` … `w99`
reaching word 11 (index 10) in flight, with the pause poll firing there. -/
theorem c3_pause_after_ten_words_witness :
    hundredWords.length = 100 ∧
    (∀ v ∈ hundredWords, trim v ≠ []) ∧
    (hundredWords.map trim).Nodup ∧
    ((OrchestratorState.mk 10 BatchPhase.inFlight
        (expectedLang okCfg emptyLang hundredWords 10)
        (((hundredWords.take 10).map trim).reverse)
        false false false).lang.vocabulary.length
      = emptyLang.vocabulary.length + 10 ∧
    (OrchestratorState.mk 10 BatchPhase.inFlight
        (expectedLang okCfg emptyLang hundredWords 10)
        (((hundredWords.take 10).map trim).reverse)
        true false false).isPaused = true ∧
    (OrchestratorState.mk 10 BatchPhase.inFlight
        (expectedLang okCfg emptyLang hundredWords 10)
        (((hundredWords.take 10).map trim).reverse)
        true false false).lang
      = (OrchestratorState.mk 10 BatchPhase.inFlight
          (expectedLang okCfg emptyLang hundredWords 10)
          (((hundredWords.take 10).map trim).reverse)
          false false false).lang ∧
    (OrchestratorState.mk 10 BatchPhase.inFlight
        (expectedLang okCfg emptyLang hundredWords 10)
        (((hundredWords.take 10).map trim).reverse)
        true false false).phase = BatchPhase.inFlight ∧
    (∀ t t' : OrchestratorState,
      BatchStep okCfg hundredWords t .startWord t' → t.isPaused = false) ∧
    (∀ (t t' : OrchestratorState) (l : BatchLabel),
      BatchStep okCfg hundredWords t l t' →
        t.phase = .inFlight → t'.phase ≠ .inFlight → l = .finishWord)) :=
  ⟨rfl, by decide, by decide,
    c3_pause_after_ten_words okCfg hundredWords emptyLang
      (OrchestratorState.mk 10 BatchPhase.inFlight
        (expectedLang okCfg emptyLang hundredWords 10)
        (((hundredWords.take 10).map trim).reverse) false false false)
      (OrchestratorState.mk 10 BatchPhase.inFlight
        (expectedLang okCfg emptyLang hundredWords 10)
        (((hundredWords.take 10).map trim).reverse) true false false)
      rfl (by decide) (by decide)
      (fun v _ => ⟨[], rfl⟩) (fun v _ => rfl)
      (BatchReachable.step
        (batch_can_reach okCfg hundredWords emptyLang (by decide) (by decide) 10
          (by decide))
        (BatchStep.startWord _ (['w', '1', '0'] : Word) rfl rfl rfl rfl
          (by decide) (by decide) (by decide)))
      rfl rfl
      (BatchStep.pollDetect _ rfl)⟩

/-! ## Consistency analyzer refinement (for C2) -/

/-- `assocGet?` on the empty map. -/
theorem assocGet?_nil {α β : Type} [DecidableEq α] (k : α) :
    assocGet? ([] : List (α × β)) k = none := rfl

/-- `assocGet?` on a cons cell. -/
theorem assocGet?_cons {α β : Type} [DecidableEq α] (a : α) (b : β)
    (m : List (α × β)) (k : α) :
    assocGet? ((a, b) :: m) k = if a = k then some b else assocGet? m k := by
  unfold assocGet?
  by_cases h : a = k
  · rw [List.find?_cons_of_pos _ (by simpa using h), if_pos h]
    rfl
  · rw [List.find?_cons_of_neg _ (by simpa using h), if_neg h]

/-- In a map with distinct keys, every entry is found by its key. -/
theorem assocGet?_of_mem {α β : Type} [DecidableEq α] {m : List (α × β)}
    (hnd : (m.map Prod.fst).Nodup) {p : α × β} (hp : p ∈ m) :
    assocGet? m p.1 = some p.2 := by
  induction m with
  | nil => cases hp
  | cons q rest ih =>
      obtain ⟨a, b⟩ := q
      simp only [List.map_cons, List.nodup_cons] at hnd
      rcases List.mem_cons.mp hp with h1 | h1
      · subst h1
        rw [assocGet?_cons, if_pos rfl]
      · rw [assocGet?_cons, if_neg ?_]
        · exact ih hnd.2 h1
        · intro hak
          exact hnd.1 (hak ▸ List.mem_map_of_mem Prod.fst h1)

/-- `bumpTransform` lookup characterization. -/
theorem assocGet?_bumpTransform (mt : TransformMap) (t t' : Word) :
    assocGet? (bumpTransform mt t) t'
      = if t' = t then some (((assocGet? mt t).getD 0) + 1) else assocGet? mt t' := by
  induction mt with
  | nil =>
      show assocGet? [(t, 1)] t' = _
      rw [assocGet?_cons, assocGet?_nil]
      split_ifs <;> simp_all [assocGet?_nil]
  | cons q rest ih =>
      obtain ⟨t0, n0⟩ := q
      unfold bumpTransform
      by_cases h0 : t0 = t
      · subst h0
        clear ih
        rw [if_pos rfl]
        simp only [assocGet?_cons]
        split_ifs <;> simp_all
      · rw [if_neg h0]
        simp only [assocGet?_cons, ih]
        split_ifs <;> simp_all

/-- `bumpTransform` key characterization. -/
theorem keys_bumpTransform (mt : TransformMap) (t : Word) :
    (bumpTransform mt t).map Prod.fst
      = if t ∈ mt.map Prod.fst then mt.map Prod.fst
        else mt.map Prod.fst ++ [t] := by
  induction mt with
  | nil => rfl
  | cons q rest ih =>
      obtain ⟨t0, n0⟩ := q
      unfold bumpTransform
      by_cases h0 : t0 = t
      · subst h0
        rw [if_pos rfl, if_pos (by simp)]
        rfl
      · rw [if_neg h0]
        simp only [List.map_cons, ih]
        by_cases h : t ∈ rest.map Prod.fst
        · rw [if_pos h, if_pos (by simp [h])]
        · rw [if_neg h, if_neg ?_]
          · rfl
          · simp only [List.mem_cons]
            push_neg
            exact ⟨fun hh => h0 hh.symm, h⟩

/-- Lookup characterization of the inner frequency fold: the count of each
target string. -/
theorem assocGet?_foldl_bumpTransform (ts : List Word) :
    ∀ (m0 : TransformMap) (t : Word),
      assocGet? (ts.foldl bumpTransform m0) t
        = if ts.count t = 0 then assocGet? m0 t
          else some ((assocGet? m0 t).getD 0 + ts.count t) := by
  induction ts with
  | nil =>
      intro m0 t
      simp
  | cons t0 rest ih =>
      intro m0 t
      rw [List.foldl_cons, ih (bumpTransform m0 t0) t, assocGet?_bumpTransform]
      by_cases h : t = t0
      · subst h
        rw [if_pos rfl]
        have h1 : ¬ (List.count t (t :: rest) = 0) := by
          simp
        rw [if_neg h1, List.count_cons_self]
        by_cases hr : rest.count t = 0
        · rw [if_pos hr, hr]
        · rw [if_neg hr]
          simp only [Option.getD_some]
          congr 1
          omega
      · rw [if_neg h]
        have hcnt : List.count t (t0 :: rest) = rest.count t := by
          rw [List.count_cons_of_ne h]
        rw [hcnt]

/-- Key characterization of the inner frequency fold. -/
theorem keys_foldl_bumpTransform (ts : List Word) :
    ∀ (m0 : TransformMap), (m0.map Prod.fst).Nodup →
      ((ts.foldl bumpTransform m0).map Prod.fst).Nodup ∧
      (∀ x, x ∈ (ts.foldl bumpTransform m0).map Prod.fst
        ↔ x ∈ m0.map Prod.fst ∨ x ∈ ts) := by
  induction ts with
  | nil =>
      intro m0 h
      exact ⟨h, fun x => by simp⟩
  | cons t0 rest ih =>
      intro m0 h
      rw [List.foldl_cons]
      have hkeys := keys_bumpTransform m0 t0
      have hnd1 : ((bumpTransform m0 t0).map Prod.fst).Nodup := by
        rw [hkeys]
        by_cases hm : t0 ∈ m0.map Prod.fst
        · rw [if_pos hm]
          exact h
        · rw [if_neg hm]
          simp [List.nodup_append, h, hm]
      obtain ⟨ha, hb⟩ := ih (bumpTransform m0 t0) hnd1
      refine ⟨ha, fun x => ?_⟩
      rw [hb x, hkeys]
      by_cases hm : t0 ∈ m0.map Prod.fst
      · rw [if_pos hm]
        constructor
        · rintro (h1 | h1)
          · exact Or.inl h1
          · exact Or.inr (List.mem_cons_of_mem _ h1)
        · rintro (h1 | h1)
          · exact Or.inl h1
          · rcases List.mem_cons.mp h1 with h2 | h2
            · exact Or.inl (h2 ▸ hm)
            · exact Or.inr h2
      · rw [if_neg hm]
        simp only [List.mem_append, List.mem_singleton, List.mem_cons]
        tauto

/-- The vowel map after one `patternStep`. -/
theorem patternStep_vowel (st : PhoneticPatterns) (ob : Char × Word) :
    (patternStep st ob).vowelTransformations
      = if ob.1 ∈ vowels5 then bumpChar st.vowelTransformations ob.1 ob.2
        else st.vowelTransformations := by
  simp only [patternStep]
  split_ifs <;> rfl

/-- The consonant map after one `patternStep`. -/
theorem patternStep_consonant (st : PhoneticPatterns) (ob : Char × Word) :
    (patternStep st ob).consonantShifts
      = if ob.1 ∈ consonants21 then bumpChar st.consonantShifts ob.1 ob.2
        else st.consonantShifts := by
  simp only [patternStep]
  split_ifs <;> rfl

/-- The pattern-analysis fold splits into two independent `bumpChar` folds
over the class-filtered observations. -/
theorem foldl_patternStep (obs : List (Char × Word)) :
    ∀ st : PhoneticPatterns,
      (obs.foldl patternStep st).vowelTransformations
        = ((obs.filter (fun ob => decide (ob.1 ∈ vowels5))).foldl
            (fun m ob => bumpChar m ob.1 ob.2) st.vowelTransformations)
      ∧ (obs.foldl patternStep st).consonantShifts
        = ((obs.filter (fun ob => decide (ob.1 ∈ consonants21))).foldl
            (fun m ob => bumpChar m ob.1 ob.2) st.consonantShifts) := by
  induction obs with
  | nil => intro st; exact ⟨rfl, rfl⟩
  | cons ob rest ih =>
      intro st
      rw [List.foldl_cons]
      obtain ⟨h1, h2⟩ := ih (patternStep st ob)
      constructor
      · rw [h1, patternStep_vowel, List.filter_cons]
        by_cases hv : ob.1 ∈ vowels5
        · rw [if_pos hv, if_pos (decide_eq_true hv), List.foldl_cons]
        · rw [if_neg hv, if_neg (fun hh => hv (of_decide_eq_true hh))]
      · rw [h2, patternStep_consonant, List.filter_cons]
        by_cases hv : ob.1 ∈ consonants21
        · rw [if_pos hv, if_pos (decide_eq_true hv), List.foldl_cons]
        · rw [if_neg hv, if_neg (fun hh => hv (of_decide_eq_true hh))]

/-- `bumpChar` lookup characterization. -/
theorem assocGet?_bumpChar (m : CharTransformMap) (c : Char) (t : Word) (c' : Char) :
    assocGet? (bumpChar m c t) c'
      = if c' = c then some (bumpTransform ((assocGet? m c).getD []) t)
        else assocGet? m c' := by
  induction m with
  | nil =>
      show assocGet? [(c, bumpTransform [] t)] c' = _
      rw [assocGet?_cons, assocGet?_nil]
      split_ifs <;> simp_all [assocGet?_nil]
  | cons q rest ih =>
      obtain ⟨c0, inner⟩ := q
      unfold bumpChar
      by_cases h0 : c0 = c
      · subst h0
        clear ih
        rw [if_pos rfl]
        simp only [assocGet?_cons]
        split_ifs <;> simp_all
      · rw [if_neg h0]
        simp only [assocGet?_cons, ih]
        split_ifs <;> simp_all

/-- `bumpChar` key characterization. -/
theorem keys_bumpChar (m : CharTransformMap) (c : Char) (t : Word) :
    (bumpChar m c t).map Prod.fst
      = if c ∈ m.map Prod.fst then m.map Prod.fst
        else m.map Prod.fst ++ [c] := by
  induction m with
  | nil => rfl
  | cons q rest ih =>
      obtain ⟨c0, inner⟩ := q
      unfold bumpChar
      by_cases h0 : c0 = c
      · subst h0
        rw [if_pos rfl, if_pos (by simp)]
        rfl
      · rw [if_neg h0]
        simp only [List.map_cons, ih]
        by_cases h : c ∈ rest.map Prod.fst
        · rw [if_pos h, if_pos (by simp [h])]
        · rw [if_neg h, if_neg ?_]
          · rfl
          · simp only [List.mem_cons]
            push_neg
            exact ⟨fun hh => h0 hh.symm, h⟩

/-- `targetsFor` on a cons cell. -/
theorem targetsFor_cons (ob : Char × Word) (rest : List (Char × Word)) (c : Char) :
    targetsFor (ob :: rest) c
      = if ob.1 = c then ob.2 :: targetsFor rest c else targetsFor rest c := by
  unfold targetsFor
  rw [List.filter_cons]
  by_cases h : ob.1 = c
  · rw [if_pos (decide_eq_true h), if_pos h, List.map_cons]
  · rw [if_neg (fun hh => h (of_decide_eq_true hh)), if_neg h]

/-- Lookup characterization of the outer `bumpChar` fold: the inner map at a
source character is the inner fold over that character's targets. -/
theorem assocGet?_foldl_bumpChar (obs : List (Char × Word)) :
    ∀ (m0 : CharTransformMap) (c : Char),
      assocGet? (obs.foldl (fun m ob => bumpChar m ob.1 ob.2) m0) c
        = if targetsFor obs c = [] then assocGet? m0 c
          else some ((targetsFor obs c).foldl bumpTransform
                      ((assocGet? m0 c).getD [])) := by
  induction obs with
  | nil =>
      intro m0 c
      simp [targetsFor]
  | cons ob rest ih =>
      intro m0 c
      rw [List.foldl_cons, ih (bumpChar m0 ob.1 ob.2) c, assocGet?_bumpChar,
        targetsFor_cons]
      by_cases h : ob.1 = c
      · subst h
        rw [if_pos rfl, if_pos rfl, if_neg (List.cons_ne_nil _ _), List.foldl_cons]
        by_cases hr : targetsFor rest ob.1 = []
        · rw [if_pos hr, hr, List.foldl_nil]
        · rw [if_neg hr]
          simp only [Option.getD_some]
      · rw [if_neg (show ¬ (c = ob.1) from fun hh => h hh.symm), if_neg h]

/-- Key characterization of the outer `bumpChar` fold. -/
theorem keys_foldl_bumpChar (obs : List (Char × Word)) :
    ∀ m0 : CharTransformMap, (m0.map Prod.fst).Nodup →
      (((obs.foldl (fun m ob => bumpChar m ob.1 ob.2) m0).map Prod.fst).Nodup ∧
      (∀ x, x ∈ (obs.foldl (fun m ob => bumpChar m ob.1 ob.2) m0).map Prod.fst
        ↔ x ∈ m0.map Prod.fst ∨ x ∈ obs.map (fun ob => ob.1))) := by
  induction obs with
  | nil =>
      intro m0 h
      exact ⟨h, fun x => by simp⟩
  | cons ob rest ih =>
      intro m0 h
      rw [List.foldl_cons]
      have hkeys := keys_bumpChar m0 ob.1 ob.2
      have hnd1 : ((bumpChar m0 ob.1 ob.2).map Prod.fst).Nodup := by
        rw [hkeys]
        by_cases hm : ob.1 ∈ m0.map Prod.fst
        · rw [if_pos hm]
          exact h
        · rw [if_neg hm]
          simp [List.nodup_append, h, hm]
      obtain ⟨ha, hb⟩ := ih (bumpChar m0 ob.1 ob.2) hnd1
      refine ⟨ha, fun x => ?_⟩
      rw [hb x, hkeys, List.map_cons]
      by_cases hm : ob.1 ∈ m0.map Prod.fst
      · rw [if_pos hm]
        constructor
        · rintro (h1 | h1)
          · exact Or.inl h1
          · exact Or.inr (List.mem_cons_of_mem _ h1)
        · rintro (h1 | h1)
          · exact Or.inl h1
          · rcases List.mem_cons.mp h1 with h2 | h2
            · exact Or.inl (h2 ▸ hm)
            · exact Or.inr h2
      · rw [if_neg hm]
        simp only [List.mem_append, List.mem_singleton, List.mem_cons]
        tauto

/-- Class filtering of the observations does not change the targets of a
character of that class. -/
theorem targetsFor_filter {cls : List Char} {c : Char} (hc : c ∈ cls)
    (obs : List (Char × Word)) :
    targetsFor (obs.filter (fun ob => decide (ob.1 ∈ cls))) c
      = targetsFor obs c := by
  induction obs with
  | nil => rfl
  | cons ob rest ih =>
      rw [List.filter_cons, targetsFor_cons]
      by_cases h : ob.1 = c
      · rw [if_pos h, if_pos (decide_eq_true (by rwa [h]))]
        rw [targetsFor_cons, if_pos h, ih]
      · rw [if_neg h]
        by_cases hcl : decide (ob.1 ∈ cls) = true
        · rw [if_pos hcl, targetsFor_cons, if_neg h, ih]
        · rw [if_neg hcl, ih]

/-- An observed source character has at least one target. -/
theorem targetsFor_ne_nil {obs : List (Char × Word)} {c : Char}
    (h : c ∈ obs.map (fun ob => ob.1)) : targetsFor obs c ≠ [] := by
  obtain ⟨p, hp, hpc⟩ := List.mem_map.mp h
  have hf : p ∈ obs.filter (fun q => decide (q.1 = c)) :=
    List.mem_filter.mpr ⟨hp, decide_eq_true hpc⟩
  exact List.ne_nil_of_mem (List.mem_map_of_mem (fun q => q.2) hf)

/-- Folding `max` from an arbitrary seed. -/
theorem foldl_max_eq (l : List Nat) :
    ∀ i : Nat, l.foldl max i = max i (l.foldl max 0) := by
  induction l with
  | nil =>
      intro i
      simp
  | cons b l ih =>
      intro i
      rw [List.foldl_cons, List.foldl_cons, ih (max i b), ih (max 0 b),
        Nat.zero_max]
      exact Nat.max_assoc i b _

/-- `listMaxNat` on a cons cell. -/
theorem listMaxNat_cons (a : Nat) (l : List Nat) :
    listMaxNat (a :: l) = max a (listMaxNat l) := by
  unfold listMaxNat
  rw [List.foldl_cons, foldl_max_eq, Nat.zero_max]

/-- `listMaxNat` over a mapped list is the finite sup over the list. -/
theorem listMaxNat_map_eq_sup (f : Word → Nat) (l : List Word) :
    listMaxNat (l.map f) = l.toFinset.sup f := by
  induction l with
  | nil => rfl
  | cons a l ih =>
      rw [List.map_cons, listMaxNat_cons, ih, List.toFinset_cons,
        Finset.sup_insert]

/-- Every entry of the inner frequency fold stores the count of its key. -/
theorem mem_foldl_bumpTransform_val {ts : List Word} {p : Word × Nat}
    (hp : p ∈ ts.foldl bumpTransform []) : p.2 = ts.count p.1 := by
  have hk := keys_foldl_bumpTransform ts [] (by simp)
  have h1 : assocGet? (ts.foldl bumpTransform []) p.1 = some p.2 :=
    assocGet?_of_mem hk.1 hp
  rw [assocGet?_foldl_bumpTransform] at h1
  by_cases h : ts.count p.1 = 0
  · rw [if_pos h, assocGet?_nil] at h1
    cases h1
  · rw [if_neg h, assocGet?_nil] at h1
    simpa using h1.symm

/-- The keys of the inner frequency fold are the distinct targets. -/
theorem keys_inner_toFinset (ts : List Word) :
    ((ts.foldl bumpTransform []).map Prod.fst).toFinset = ts.toFinset := by
  have hk := keys_foldl_bumpTransform ts [] (by simp)
  ext x
  rw [List.mem_toFinset, List.mem_toFinset, hk.2 x]
  simp

/-- Summing the multiplicities over the distinct elements gives the length. -/
theorem sum_count_toFinset (ts : List Word) :
    ∑ t in ts.toFinset, ts.count t = ts.length := by
  induction ts with
  | nil => rfl
  | cons a ts ih =>
      rw [List.toFinset_cons, List.length_cons]
      by_cases ha : a ∈ ts.toFinset
      · rw [Finset.insert_eq_self.mpr ha]
        have hc : ∑ t in ts.toFinset, (a :: ts).count t
            = ∑ t in ts.toFinset, (ts.count t + if a == t then 1 else 0) := by
          apply Finset.sum_congr rfl
          intro t ht
          rw [List.count_cons]
        rw [hc, Finset.sum_add_distrib, ih]
        congr 1
        have hone : ∑ t in ts.toFinset, (if a == t then 1 else 0)
            = ∑ t in ts.toFinset, (if a = t then 1 else 0) := by
          apply Finset.sum_congr rfl
          intro t ht
          simp [beq_iff_eq]
        rw [hone, Finset.sum_ite_eq, if_pos ha]
      · rw [Finset.sum_insert ha]
        have h0 : ts.count a = 0 := by
          rw [List.count_eq_zero]
          exact fun hmem => ha (List.mem_toFinset.mpr hmem)
        rw [List.count_cons_self, h0]
        have hsame : ∑ t in ts.toFinset, (a :: ts).count t
            = ∑ t in ts.toFinset, ts.count t := by
          apply Finset.sum_congr rfl
          intro t ht
          exact List.count_cons_of_ne (fun hh => ha (by rwa [hh] at ht)) _
        rw [hsame, ih]
        omega

/-- The values of the inner frequency fold sum to the number of targets. -/
theorem inner_values_sum (ts : List Word) :
    (((ts.foldl bumpTransform []).map (fun p => p.2)).sum) = ts.length := by
  have hk := keys_foldl_bumpTransform ts [] (by simp)
  have hcongr : (ts.foldl bumpTransform []).map (fun p => p.2)
      = (ts.foldl bumpTransform []).map (fun p => ts.count p.1) :=
    List.map_congr_left (fun p hp => mem_foldl_bumpTransform_val hp)
  rw [hcongr]
  have hmm : (ts.foldl bumpTransform []).map (fun p => ts.count p.1)
      = ((ts.foldl bumpTransform []).map Prod.fst).map (fun t => ts.count t) := by
    rw [List.map_map]
    rfl
  rw [hmm, ← List.sum_toFinset _ hk.1, keys_inner_toFinset]
  exact sum_count_toFinset ts

/-- The maximum value of the inner frequency fold is the largest count. -/
theorem inner_values_max (ts : List Word) :
    listMaxNat ((ts.foldl bumpTransform []).map (fun p => p.2))
      = ts.toFinset.sup (fun t => ts.count t) := by
  have hk := keys_foldl_bumpTransform ts [] (by simp)
  have hcongr : (ts.foldl bumpTransform []).map (fun p => p.2)
      = (ts.foldl bumpTransform []).map (fun p => ts.count p.1) :=
    List.map_congr_left (fun p hp => mem_foldl_bumpTransform_val hp)
  have hmm : (ts.foldl bumpTransform []).map (fun p => ts.count p.1)
      = ((ts.foldl bumpTransform []).map Prod.fst).map (fun t => ts.count t) := by
    rw [List.map_map]
    rfl
  rw [hcongr, hmm, listMaxNat_map_eq_sup, keys_inner_toFinset]

/-- Every entry of the outer fold stores the inner fold over its targets. -/
theorem mem_foldl_bumpChar_val {obs : List (Char × Word)} {p : Char × TransformMap}
    (hp : p ∈ obs.foldl (fun m ob => bumpChar m ob.1 ob.2) []) :
    targetsFor obs p.1 ≠ [] ∧ p.2 = (targetsFor obs p.1).foldl bumpTransform [] := by
  have hk := keys_foldl_bumpChar obs [] (by simp)
  have h1 : assocGet? (obs.foldl (fun m ob => bumpChar m ob.1 ob.2) []) p.1
      = some p.2 := assocGet?_of_mem hk.1 hp
  rw [assocGet?_foldl_bumpChar] at h1
  by_cases h : targetsFor obs p.1 = []
  · rw [if_pos h, assocGet?_nil] at h1
    cases h1
  · rw [if_neg h, assocGet?_nil] at h1
    exact ⟨h, by simpa using h1.symm⟩

/-- Membership in `observedSources`. -/
theorem mem_observedSources {obs : List (Char × Word)} {cls : List Char} {x : Char} :
    x ∈ observedSources obs cls ↔ x ∈ obs.map (fun ob => ob.1) ∧ x ∈ cls := by
  unfold observedSources
  rw [List.mem_toFinset, List.mem_filter]
  simp

/-- The keys of the class-filtered outer fold are the observed sources of
that class. -/
theorem keys_classMap_toFinset (obs : List (Char × Word)) (cls : List Char) :
    (((obs.filter (fun ob => decide (ob.1 ∈ cls))).foldl
        (fun m ob => bumpChar m ob.1 ob.2) []).map Prod.fst).toFinset
      = observedSources obs cls := by
  have hk := keys_foldl_bumpChar (obs.filter (fun ob => decide (ob.1 ∈ cls))) []
    (by simp)
  ext x
  rw [List.mem_toFinset, hk.2 x, mem_observedSources]
  simp only [List.map_nil, List.not_mem_nil, false_or]
  constructor
  · intro hx
    obtain ⟨p, hp, rfl⟩ := List.mem_map.mp hx
    obtain ⟨hp1, hp2⟩ := List.mem_filter.mp hp
    exact ⟨List.mem_map_of_mem _ hp1, of_decide_eq_true hp2⟩
  · rintro ⟨hx1, hx2⟩
    obtain ⟨p, hp, rfl⟩ := List.mem_map.mp hx1
    exact List.mem_map_of_mem _ (List.mem_filter.mpr ⟨hp, decide_eq_true hx2⟩)

/-- The class-filtered outer fold has one entry per observed source. -/
theorem length_classMap (obs : List (Char × Word)) (cls : List Char) :
    ((obs.filter (fun ob => decide (ob.1 ∈ cls))).foldl
        (fun m ob => bumpChar m ob.1 ob.2) []).length
      = (observedSources obs cls).card := by
  have hk := keys_foldl_bumpChar (obs.filter (fun ob => decide (ob.1 ∈ cls))) []
    (by simp)
  rw [← keys_classMap_toFinset obs cls, List.toFinset_card_of_nodup hk.1,
    List.length_map]

/-- Summing a per-entry quantity that only depends on the key, over a map
with distinct keys. -/
theorem sum_map_eq_finset_sum {M : List (Char × TransformMap)}
    (hnd : (M.map Prod.fst).Nodup) (g : Char × TransformMap → ℚ) (f : Char → ℚ)
    (h : ∀ p ∈ M, g p = f p.1) :
    (M.map g).sum = ∑ c in (M.map Prod.fst).toFinset, f c := by
  rw [List.sum_toFinset _ hnd, List.map_map]
  exact congrArg List.sum (List.map_congr_left h)

/-- The score contribution of one class map is the sum of the spec's
per-character consistency ratios over the observed sources of the class. -/
theorem mapScore_classMap (obs : List (Char × Word)) (cls : List Char) :
    mapScore ((obs.filter (fun ob => decide (ob.1 ∈ cls))).foldl
        (fun m ob => bumpChar m ob.1 ob.2) [])
      = ∑ c in observedSources obs cls, specCharRatio obs c := by
  have hk := keys_foldl_bumpChar (obs.filter (fun ob => decide (ob.1 ∈ cls))) []
    (by simp)
  simp only [mapScore]
  refine Eq.trans (sum_map_eq_finset_sum hk.1 _ (specCharRatio obs) ?_)
    (by rw [keys_classMap_toFinset])
  intro p hp
  obtain ⟨hne, hval⟩ := mem_foldl_bumpChar_val hp
  have hx : p.1 ∈ (obs.filter (fun ob => decide (ob.1 ∈ cls))).map
      (fun ob => ob.1) :=
    ((hk.2 p.1).mp (List.mem_map_of_mem Prod.fst hp)).resolve_left (by simp)
  obtain ⟨q, hq, hq1⟩ := List.mem_map.mp hx
  have hcls : p.1 ∈ cls := hq1 ▸ of_decide_eq_true (List.mem_filter.mp hq).2
  rw [hval, targetsFor_filter hcls, inner_values_max, inner_values_sum]
  simp only [specCharRatio]

/-- A vowel source is never a consonant source. -/
theorem observedSources_disjoint (obs : List (Char × Word)) :
    Disjoint (observedSources obs vowels5) (observedSources obs consonants21) := by
  rw [Finset.disjoint_left]
  intro x hxv hxc
  have h1 := (mem_observedSources.mp hxv).2
  have h2 := (mem_observedSources.mp hxc).2
  fin_cases h1 <;> exact absurd h2 (by decide)

/-- The spec's per-character ratio is nonnegative. -/
theorem specCharRatio_nonneg (obs : List (Char × Word)) (c : Char) :
    0 ≤ specCharRatio obs c := by
  simp only [specCharRatio]
  apply mul_nonneg
  · exact div_nonneg (Nat.cast_nonneg _) (Nat.cast_nonneg _)
  · norm_num

/-- The spec's per-character ratio is at most 100. -/
theorem specCharRatio_le_100 (obs : List (Char × Word)) (c : Char) :
    specCharRatio obs c ≤ 100 := by
  simp only [specCharRatio]
  have hle : (targetsFor obs c).toFinset.sup
      (fun t => (targetsFor obs c).count t) ≤ (targetsFor obs c).length :=
    Finset.sup_le (fun t _ => List.count_le_length _ _)
  by_cases h0 : (targetsFor obs c).length = 0
  · rw [h0]
    norm_num
  · have hpos : (0:ℚ) < ((targetsFor obs c).length : ℚ) := by
      exact_mod_cast Nat.pos_of_ne_zero h0
    have hd : ((((targetsFor obs c).toFinset.sup
        (fun t => (targetsFor obs c).count t) : ℕ) : ℚ)
          / ((targetsFor obs c).length : ℚ)) ≤ 1 := by
      rw [div_le_one hpos]
      exact_mod_cast hle
    nlinarith [hd]

/-- The spec's consistency score is nonnegative. -/
theorem specConsistencyScore_nonneg (vocab : Vocabulary) :
    0 ≤ specConsistencyScore vocab := by
  simp only [specConsistencyScore]
  split_ifs with h
  · exact le_refl 0
  · exact div_nonneg
      (Finset.sum_nonneg (fun c _ => specCharRatio_nonneg _ c))
      (Nat.cast_nonneg _)

/-- The spec's consistency score is at most 100. -/
theorem specConsistencyScore_le_100 (vocab : Vocabulary) :
    specConsistencyScore vocab ≤ 100 := by
  simp only [specConsistencyScore]
  split_ifs with h
  · norm_num
  · have hpos : (0:ℚ) < (((observedSources (vocabObservations vocab) vowels5 ∪
        observedSources (vocabObservations vocab) consonants21).card : ℕ) : ℚ) := by
      exact_mod_cast Nat.pos_of_ne_zero h
    rw [div_le_iff₀ hpos]
    calc ∑ c in observedSources (vocabObservations vocab) vowels5 ∪
            observedSources (vocabObservations vocab) consonants21,
          specCharRatio (vocabObservations vocab) c
        ≤ ∑ _c in observedSources (vocabObservations vocab) vowels5 ∪
            observedSources (vocabObservations vocab) consonants21, (100:ℚ) :=
          Finset.sum_le_sum (fun c _ => specCharRatio_le_100 _ c)
      _ = ((observedSources (vocabObservations vocab) vowels5 ∪
            observedSources (vocabObservations vocab) consonants21).card : ℚ)
              * 100 := by
          rw [Finset.sum_const, nsmul_eq_mul]
      _ = 100 * ((observedSources (vocabObservations vocab) vowels5 ∪
            observedSources (vocabObservations vocab) consonants21).card : ℚ) :=
          mul_comm _ _

/-- The analyzer's consistency score coincides with the spec's mean of
per-character ratios. -/
theorem consistencyScore_eq_spec (vocab : Vocabulary) :
    consistencyScore vocab = specConsistencyScore vocab := by
  simp only [consistencyScore, calculateConsistencyScore,
    analyzePhoneticPatterns, specConsistencyScore]
  obtain ⟨hv, hc⟩ := foldl_patternStep (vocabObservations vocab) ⟨[], []⟩
  dsimp only at hv hc
  rw [hv, hc, mapScore_classMap, mapScore_classMap, length_classMap,
    length_classMap]
  have hdis := observedSources_disjoint (vocabObservations vocab)
  rw [Finset.sum_union hdis, Finset.card_union_of_disjoint hdis]
  by_cases h : (observedSources (vocabObservations vocab) vowels5).card
      + (observedSources (vocabObservations vocab) consonants21).card = 0
  · rw [if_neg (by omega), if_pos h]
  · rw [if_pos (by omega), if_neg h]

/-- C2: for every vocabulary the Consistency Analyzer's score lies in
[0,100] and equals the arithmetic mean, over all distinct source vowels and
consonants observed, of (most-frequent-target-count / total-observations)
as a percentage; the empty vocabulary scores 0. -/
theorem c2_consistency_score_refines_spec :
    (∀ vocab : Vocabulary,
      0 ≤ consistencyScore vocab ∧ consistencyScore vocab ≤ 100 ∧
      consistencyScore vocab = specConsistencyScore vocab) ∧
    consistencyScore [] = 0 := by
  refine ⟨fun vocab => ?_, rfl⟩
  have he := consistencyScore_eq_spec vocab
  refine ⟨?_, ?_, he⟩
  · rw [he]
    exact specConsistencyScore_nonneg vocab
  · rw [he]
    exact specConsistencyScore_le_100 vocab

end Sigment
